import Mathlib

/-!
Shallow embedding of `src/lvnshnforitr/levenshtein.py`.

The DP tables are modelled as total functions `Nat → Nat → _` (the Python code
allocates dense `(len(seq2)+1) × (len(seq1)+1)` lists of lists; only indices in
that range are ever read or written, and the embedding's loops write exactly the
same cells).  Rows are indexed by `seq2` (the "after" sequence), columns by
`seq1` (the "before" sequence), exactly as in the source.  Costs are `Nat`:
the spec restricts the contract to non-negative costs and declares negative
costs undefined behaviour.

The two backtracking loops of the source (`while` over the single-predecessor
memo in `align`, and the explicit work-stack DFS in `align_all`) are embedded
as fuel-consuming structural recursions; the fuel supplied at the call sites
(`len1 + len2`, resp. `4 ^ (len1 + len2)`) is proved sufficient below, so the
"fuel exhausted" branches are unreachable for the memo tables the fills build.
-/

namespace Lvnshnforitr

variable {α : Type} [DecidableEq α] [Inhabited α]

/-- An aligned pair: left component from `seq1` (before), right component from
`seq2` (after); `none` is the absent marker (Python `None`). -/
abbrev Pair (α : Type) : Type := Option α × Option α

/-- Point update of a two-index table, modelling `table[r][c] = v`. -/
def upd {β : Type} (t : Nat → Nat → β) (r c : Nat) (v : β) : Nat → Nat → β :=
  fun r' c' => if r' = r ∧ c' = c then v else t r' c'

/-- Inner loop `for row_idx, item2 in enumerate(seq2)` of the DP fills:
runs `body` at each (row, col) cell, threading the fill state. -/
def innerLoop {σ : Type} (body : σ → Nat → Nat → α → α → σ) (item1 : α) (c : Nat) :
    List α → Nat → σ → σ
  | [], _, s => s
  | item2 :: rest, r, s => innerLoop body item1 c rest (r + 1) (body s r c item1 item2)

/-- Outer loop `for col_idx, item1 in enumerate(seq1)` of the DP fills. -/
def outerLoop {σ : Type} (body : σ → Nat → Nat → α → α → σ) (seq2 : List α) :
    List α → Nat → σ → σ
  | [], _, s => s
  | item1 :: rest, c, s => outerLoop body seq2 rest (c + 1) (innerLoop body item1 c seq2 0 s)

/-- A complete DP fill over `seq1` (columns) and `seq2` (rows) from state `s0`. -/
def runFill {σ : Type} (body : σ → Nat → Nat → α → α → σ) (seq1 seq2 : List α) (s0 : σ) : σ :=
  outerLoop body seq2 seq1 0 s0

/-- Initial DP table of the flat-cost functions:
`col_idx * delete_cost + row_idx * insert_cost`. -/
def flatInit (insert_cost delete_cost : Nat) : Nat → Nat → Nat :=
  fun row_idx col_idx => col_idx * delete_cost + row_idx * insert_cost

/-- Per-cell body of the DP loop of `distance`. -/
def distBody (insert_cost delete_cost replace_cost : Nat) :
    (Nat → Nat → Nat) → Nat → Nat → α → α → (Nat → Nat → Nat) :=
  fun dp_table row_idx col_idx item1 item2 =>
    let cost_if_inserted := dp_table row_idx (col_idx + 1) + insert_cost
    let cost_if_deleted := dp_table (row_idx + 1) col_idx + delete_cost
    let cost_if_replaced := dp_table row_idx col_idx +
      (if item1 ≠ item2 then replace_cost else 0)
    upd dp_table (row_idx + 1) (col_idx + 1)
      (min (min cost_if_inserted cost_if_deleted) cost_if_replaced)

/-- The filled DP table of `distance`. -/
def distance_table (str1 str2 : List α) (insert_cost delete_cost replace_cost : Nat) :
    Nat → Nat → Nat :=
  runFill (distBody insert_cost delete_cost replace_cost) str1 str2
    (flatInit insert_cost delete_cost)

/-- `distance(str1, str2, *, insert_cost, delete_cost, replace_cost)`:
returns `dp_table[len_str2][len_str1]`. -/
def distance (str1 str2 : List α) (insert_cost delete_cost replace_cost : Nat) : Nat :=
  distance_table str1 str2 insert_cost delete_cost replace_cost str2.length str1.length

/-- Initial single-predecessor memo of `align`: every cell holds `(-1, -1)`. -/
def memoInit : Nat → Nat → Int × Int := fun _ _ => (-1, -1)

/-- Per-cell body of the DP loop of `align`: writes the table value and the single
best predecessor, testing the candidates in insert, delete, replace order with
non-strict comparisons (the final `else` mirrors the source's exhausted
`if`/`elif` chain and is unreachable, since one candidate is always minimal). -/
def alignBody (insert_cost delete_cost replace_cost : Nat) :
    ((Nat → Nat → Nat) × (Nat → Nat → Int × Int)) → Nat → Nat → α → α →
      ((Nat → Nat → Nat) × (Nat → Nat → Int × Int)) :=
  fun s row_idx col_idx item1 item2 =>
    let cost_if_inserted := s.1 row_idx (col_idx + 1) + insert_cost
    let cost_if_deleted := s.1 (row_idx + 1) col_idx + delete_cost
    let cost_if_replaced := s.1 row_idx col_idx +
      (if item1 ≠ item2 then replace_cost else 0)
    if cost_if_inserted ≤ cost_if_deleted ∧ cost_if_inserted ≤ cost_if_replaced then
      (upd s.1 (row_idx + 1) (col_idx + 1) cost_if_inserted,
       upd s.2 (row_idx + 1) (col_idx + 1) ((row_idx : Int), ((col_idx + 1 : Nat) : Int)))
    else if cost_if_deleted ≤ cost_if_inserted ∧ cost_if_deleted ≤ cost_if_replaced then
      (upd s.1 (row_idx + 1) (col_idx + 1) cost_if_deleted,
       upd s.2 (row_idx + 1) (col_idx + 1) (((row_idx + 1 : Nat) : Int), (col_idx : Int)))
    else if cost_if_replaced ≤ cost_if_inserted ∧ cost_if_replaced ≤ cost_if_deleted then
      (upd s.1 (row_idx + 1) (col_idx + 1) cost_if_replaced,
       upd s.2 (row_idx + 1) (col_idx + 1) ((row_idx : Int), (col_idx : Int)))
    else s

/-- The filled DP table and single-predecessor memo of `align`. -/
def alignState (seq1 seq2 : List α) (insert_cost delete_cost replace_cost : Nat) :
    (Nat → Nat → Nat) × (Nat → Nat → Int × Int) :=
  runFill (alignBody insert_cost delete_cost replace_cost) seq1 seq2
    (flatInit insert_cost delete_cost, memoInit)

/-- Post-loop flush shared by `align` and `align_all`: when one axis has reached 0,
the remaining prefix of the other sequence is emitted as pure insertions or pure
deletions in front of the accumulated pairs. -/
def flushAt (seq1 seq2 : List α) (row_idx col_idx : Nat) (q : List (Pair α)) : List (Pair α) :=
  if 0 < row_idx then
    ((seq2.take row_idx).map fun item2 => ((none : Option α), some item2)) ++ q
  else if 0 < col_idx then
    ((seq1.take col_idx).map fun item1 => (some item1, (none : Option α))) ++ q
  else q

/-- The `while row_idx > 0 and col_idx > 0` backtracking loop of `align` (also used
verbatim by `CustomizedLevenshtein.align`), as a fuel-consuming recursion; each
real iteration strictly decreases `row_idx + col_idx`, so the fuel supplied by
`align` is never exhausted. -/
def backtrackLoop (dp_index_memo : Nat → Nat → Int × Int) (seq1 seq2 : List α) :
    Nat → Nat → Nat → List (Pair α) → List (Pair α)
  | 0, _, _, q => q
  | fuel + 1, row_idx, col_idx, q =>
    if 0 < row_idx ∧ 0 < col_idx then
      let previous_idx := dp_index_memo row_idx col_idx
      let q' :=
        (if previous_idx.1 + 1 = (row_idx : Int) ∧ previous_idx.2 = (col_idx : Int) then
           ((none : Option α), some (seq2.getD (row_idx - 1) default))
         else if previous_idx.1 = (row_idx : Int) ∧ previous_idx.2 + 1 = (col_idx : Int) then
           (some (seq1.getD (col_idx - 1) default), (none : Option α))
         else
           (some (seq1.getD (col_idx - 1) default), some (seq2.getD (row_idx - 1) default))) :: q
      backtrackLoop dp_index_memo seq1 seq2 fuel previous_idx.1.toNat previous_idx.2.toNat q'
    else flushAt seq1 seq2 row_idx col_idx q

/-- `align(seq1, seq2, *, insert_cost, delete_cost, replace_cost)`. -/
def align (seq1 seq2 : List α) (insert_cost delete_cost replace_cost : Nat) : List (Pair α) :=
  backtrackLoop (alignState seq1 seq2 insert_cost delete_cost replace_cost).2 seq1 seq2
    (seq2.length + seq1.length) seq2.length seq1.length []

/-- Per-cell body of the DP loop of `align_all`: records every predecessor whose
candidate cost equals the minimum, appending in insert, delete, replace order. -/
def alignAllBody (insert_cost delete_cost replace_cost : Nat) :
    ((Nat → Nat → Nat) × (Nat → Nat → List (Nat × Nat))) → Nat → Nat → α → α →
      ((Nat → Nat → Nat) × (Nat → Nat → List (Nat × Nat))) :=
  fun s row_idx col_idx item1 item2 =>
    let cost_if_inserted := s.1 row_idx (col_idx + 1) + insert_cost
    let cost_if_deleted := s.1 (row_idx + 1) col_idx + delete_cost
    let cost_if_replaced := s.1 row_idx col_idx +
      (if item1 ≠ item2 then replace_cost else 0)
    let least_possible_cost := min (min cost_if_inserted cost_if_deleted) cost_if_replaced
    (upd s.1 (row_idx + 1) (col_idx + 1) least_possible_cost,
     upd s.2 (row_idx + 1) (col_idx + 1)
       (s.2 (row_idx + 1) (col_idx + 1) ++
         ((if cost_if_inserted = least_possible_cost then [(row_idx, col_idx + 1)] else []) ++
          (if cost_if_deleted = least_possible_cost then [(row_idx + 1, col_idx)] else []) ++
          (if cost_if_replaced = least_possible_cost then [(row_idx, col_idx)] else []))))

/-- The filled DP table and all-predecessors memo of `align_all`. -/
def align_all_state (seq1 seq2 : List α) (insert_cost delete_cost replace_cost : Nat) :
    (Nat → Nat → Nat) × (Nat → Nat → List (Nat × Nat)) :=
  runFill (alignAllBody insert_cost delete_cost replace_cost) seq1 seq2
    (flatInit insert_cost delete_cost, fun _ _ => ([] : List (Nat × Nat)))

/-- Classification of a predecessor into an aligned pair, mirroring the
`if previous_idx[0] + 1 == row_idx ...` chain in the DFS of `align_all`. -/
def stepPair (seq1 seq2 : List α) (row_idx col_idx : Nat) (previous_idx : Nat × Nat) : Pair α :=
  if previous_idx.1 + 1 = row_idx ∧ previous_idx.2 = col_idx then
    ((none : Option α), some (seq2.getD (row_idx - 1) default))
  else if previous_idx.1 = row_idx ∧ previous_idx.2 + 1 = col_idx then
    (some (seq1.getD (col_idx - 1) default), (none : Option α))
  else (some (seq1.getD (col_idx - 1) default), some (seq2.getD (row_idx - 1) default))

/-- The `while state_stack_for_dfs:` loop of `align_all` (also used verbatim by
`CustomizedLevenshtein.align_all`): pops the top entry, and either pushes one
successor per recorded predecessor (appending in memo order, so the stack pops
them in reverse) or completes an alignment at a boundary cell.  Fuel-consuming;
the fuel supplied by `align_all` is proved sufficient. -/
def dfsLoop (dp_index_memo : Nat → Nat → List (Nat × Nat)) (seq1 seq2 : List α) :
    Nat → List (Nat × Nat × List (Pair α)) → List (List (Pair α)) → List (List (Pair α))
  | _, [], result => result
  | 0, _ :: _, result => result
  | fuel + 1, (row_idx, col_idx, q) :: stack, result =>
    if 0 < row_idx ∧ 0 < col_idx then
      dfsLoop dp_index_memo seq1 seq2 fuel
        ((dp_index_memo row_idx col_idx).foldl
          (fun st previous_idx =>
            (previous_idx.1, previous_idx.2,
              stepPair seq1 seq2 row_idx col_idx previous_idx :: q) :: st)
          stack)
        result
    else
      dfsLoop dp_index_memo seq1 seq2 fuel stack
        (result ++ [flushAt seq1 seq2 row_idx col_idx q])

/-- `align_all(seq1, seq2, *, insert_cost, delete_cost, replace_cost)`. -/
def align_all (seq1 seq2 : List α) (insert_cost delete_cost replace_cost : Nat) :
    List (List (Pair α)) :=
  dfsLoop (align_all_state seq1 seq2 insert_cost delete_cost replace_cost).2 seq1 seq2
    (4 ^ (seq2.length + seq1.length)) [(seq2.length, seq1.length, [])] []

/-- Initial DP table of the customizable variant, mirroring the source expression
`(col_idx * delete_cost(seq1[col_idx - 1]) if col_idx > 0 else 0)
 + (row_idx * insert_cost(seq2[row_idx - 1] if row_idx > 0 else 0))`.
For `row_idx = 0` the second product is 0 whatever argument the cost function
receives, so the embedding always passes the `getD` element. -/
def customInit (seq1 seq2 : List α) (insert_cost delete_cost : α → Nat) : Nat → Nat → Nat :=
  fun row_idx col_idx =>
    (if 0 < col_idx then col_idx * delete_cost (seq1.getD (col_idx - 1) default) else 0) +
      row_idx * insert_cost (seq2.getD (row_idx - 1) default)

namespace CustomizedLevenshtein

/-- Per-cell body of `CustomizedLevenshtein.align`: like `alignBody` but with the
caller-supplied equivalence and per-element cost functions
(`replace_cost(item1, item2) * int(not is_equal(item1, item2))`). -/
def alignBody (is_equal : α → α → Bool) (insert_cost delete_cost : α → Nat)
    (replace_cost : α → α → Nat) :
    ((Nat → Nat → Nat) × (Nat → Nat → Int × Int)) → Nat → Nat → α → α →
      ((Nat → Nat → Nat) × (Nat → Nat → Int × Int)) :=
  fun s row_idx col_idx item1 item2 =>
    let cost_if_inserted := s.1 row_idx (col_idx + 1) + insert_cost item2
    let cost_if_deleted := s.1 (row_idx + 1) col_idx + delete_cost item1
    let cost_if_replaced := s.1 row_idx col_idx +
      (if is_equal item1 item2 then 0 else replace_cost item1 item2)
    if cost_if_inserted ≤ cost_if_deleted ∧ cost_if_inserted ≤ cost_if_replaced then
      (upd s.1 (row_idx + 1) (col_idx + 1) cost_if_inserted,
       upd s.2 (row_idx + 1) (col_idx + 1) ((row_idx : Int), ((col_idx + 1 : Nat) : Int)))
    else if cost_if_deleted ≤ cost_if_inserted ∧ cost_if_deleted ≤ cost_if_replaced then
      (upd s.1 (row_idx + 1) (col_idx + 1) cost_if_deleted,
       upd s.2 (row_idx + 1) (col_idx + 1) (((row_idx + 1 : Nat) : Int), (col_idx : Int)))
    else if cost_if_replaced ≤ cost_if_inserted ∧ cost_if_replaced ≤ cost_if_deleted then
      (upd s.1 (row_idx + 1) (col_idx + 1) cost_if_replaced,
       upd s.2 (row_idx + 1) (col_idx + 1) ((row_idx : Int), (col_idx : Int)))
    else s

/-- The filled DP table and single-predecessor memo of `CustomizedLevenshtein.align`. -/
def alignState (is_equal : α → α → Bool) (insert_cost delete_cost : α → Nat)
    (replace_cost : α → α → Nat) (seq1 seq2 : List α) :
    (Nat → Nat → Nat) × (Nat → Nat → Int × Int) :=
  runFill (alignBody is_equal insert_cost delete_cost replace_cost) seq1 seq2
    (customInit seq1 seq2 insert_cost delete_cost, memoInit)

/-- `CustomizedLevenshtein(is_equal, insert_cost, delete_cost, replace_cost).align`. -/
def align (is_equal : α → α → Bool) (insert_cost delete_cost : α → Nat)
    (replace_cost : α → α → Nat) (seq1 seq2 : List α) : List (Pair α) :=
  backtrackLoop (alignState is_equal insert_cost delete_cost replace_cost seq1 seq2).2
    seq1 seq2 (seq2.length + seq1.length) seq2.length seq1.length []

/-- Per-cell body of `CustomizedLevenshtein.align_all`. -/
def alignAllBody (is_equal : α → α → Bool) (insert_cost delete_cost : α → Nat)
    (replace_cost : α → α → Nat) :
    ((Nat → Nat → Nat) × (Nat → Nat → List (Nat × Nat))) → Nat → Nat → α → α →
      ((Nat → Nat → Nat) × (Nat → Nat → List (Nat × Nat))) :=
  fun s row_idx col_idx item1 item2 =>
    let cost_if_inserted := s.1 row_idx (col_idx + 1) + insert_cost item2
    let cost_if_deleted := s.1 (row_idx + 1) col_idx + delete_cost item1
    let cost_if_replaced := s.1 row_idx col_idx +
      (if is_equal item1 item2 then 0 else replace_cost item1 item2)
    let least_possible_cost := min (min cost_if_inserted cost_if_deleted) cost_if_replaced
    (upd s.1 (row_idx + 1) (col_idx + 1) least_possible_cost,
     upd s.2 (row_idx + 1) (col_idx + 1)
       (s.2 (row_idx + 1) (col_idx + 1) ++
         ((if cost_if_inserted = least_possible_cost then [(row_idx, col_idx + 1)] else []) ++
          (if cost_if_deleted = least_possible_cost then [(row_idx + 1, col_idx)] else []) ++
          (if cost_if_replaced = least_possible_cost then [(row_idx, col_idx)] else []))))

/-- The filled DP table and all-predecessors memo of `CustomizedLevenshtein.align_all`. -/
def align_all_state (is_equal : α → α → Bool) (insert_cost delete_cost : α → Nat)
    (replace_cost : α → α → Nat) (seq1 seq2 : List α) :
    (Nat → Nat → Nat) × (Nat → Nat → List (Nat × Nat)) :=
  runFill (alignAllBody is_equal insert_cost delete_cost replace_cost) seq1 seq2
    (customInit seq1 seq2 insert_cost delete_cost, fun _ _ => ([] : List (Nat × Nat)))

/-- `CustomizedLevenshtein(is_equal, insert_cost, delete_cost, replace_cost).align_all`. -/
def align_all (is_equal : α → α → Bool) (insert_cost delete_cost : α → Nat)
    (replace_cost : α → α → Nat) (seq1 seq2 : List α) : List (List (Pair α)) :=
  dfsLoop (align_all_state is_equal insert_cost delete_cost replace_cost seq1 seq2).2
    seq1 seq2 (4 ^ (seq2.length + seq1.length)) [(seq2.length, seq1.length, [])] []

end CustomizedLevenshtein

/-- Reference solution of a DP recurrence with base table `T0` and interior rule
`fv` (arguments of `fv`: value above, value to the left, diagonal value, the two
items).  The fill loops are proved to compute exactly this function on the
in-range cells. -/
def cellFV (fv : Nat → Nat → Nat → α → α → Nat) (T0 : Nat → Nat → Nat) (seq1 seq2 : List α) :
    Nat → Nat → Nat
  | 0, c => T0 0 c
  | r + 1, 0 => T0 (r + 1) 0
  | r + 1, c + 1 =>
      fv (cellFV fv T0 seq1 seq2 r (c + 1)) (cellFV fv T0 seq1 seq2 (r + 1) c)
        (cellFV fv T0 seq1 seq2 r c) (seq1.getD c default) (seq2.getD r default)
termination_by r c => (r, c)

/-- Interior rule of the flat-cost fills. -/
def fvFlat (insert_cost delete_cost replace_cost : Nat) : Nat → Nat → Nat → α → α → Nat :=
  fun a b d item1 item2 =>
    min (min (a + insert_cost) (b + delete_cost))
      (d + if item1 ≠ item2 then replace_cost else 0)

/-- The mathematical DP table of the flat-cost functions. -/
def lev (seq1 seq2 : List α) (insert_cost delete_cost replace_cost : Nat) : Nat → Nat → Nat :=
  cellFV (fvFlat insert_cost delete_cost replace_cost) (flatInit insert_cost delete_cost) seq1 seq2

/-- Candidate costs of the interior cell `(r, c)` (insert, delete, replace), in
terms of the reference table `lev`. -/
def levCosts (seq1 seq2 : List α) (insert_cost delete_cost replace_cost : Nat) (r c : Nat) :
    Nat × Nat × Nat :=
  (lev seq1 seq2 insert_cost delete_cost replace_cost (r - 1) c + insert_cost,
   lev seq1 seq2 insert_cost delete_cost replace_cost r (c - 1) + delete_cost,
   lev seq1 seq2 insert_cost delete_cost replace_cost (r - 1) (c - 1) +
     (if seq1.getD (c - 1) default ≠ seq2.getD (r - 1) default then replace_cost else 0))

/-- First minimal predecessor of an interior cell in insert, delete, replace order
(the single-best memo rule of `align`). -/
def chooseNat (ci cd cr : Nat) (r c : Nat) : Nat × Nat :=
  if ci ≤ cd ∧ ci ≤ cr then (r - 1, c)
  else if cd ≤ ci ∧ cd ≤ cr then (r, c - 1)
  else (r - 1, c - 1)

/-- All minimal predecessors of an interior cell, recorded in insert, delete,
replace order (the all-best memo rule of `align_all`). -/
def predsOf (ci cd cr : Nat) (r c : Nat) : List (Nat × Nat) :=
  (if ci = min (min ci cd) cr then [(r - 1, c)] else []) ++
  (if cd = min (min ci cd) cr then [(r, c - 1)] else []) ++
  (if cr = min (min ci cd) cr then [(r - 1, c - 1)] else [])

/-- The single best predecessor of interior cell `(r, c)` for the flat-cost fill. -/
def levChoose (seq1 seq2 : List α) (insert_cost delete_cost replace_cost : Nat) (r c : Nat) :
    Nat × Nat :=
  chooseNat (levCosts seq1 seq2 insert_cost delete_cost replace_cost r c).1
    (levCosts seq1 seq2 insert_cost delete_cost replace_cost r c).2.1
    (levCosts seq1 seq2 insert_cost delete_cost replace_cost r c).2.2 r c

/-- The recorded predecessor list of interior cell `(r, c)` for the flat-cost fill. -/
def levPreds (seq1 seq2 : List α) (insert_cost delete_cost replace_cost : Nat) (r c : Nat) :
    List (Nat × Nat) :=
  predsOf (levCosts seq1 seq2 insert_cost delete_cost replace_cost r c).1
    (levCosts seq1 seq2 insert_cost delete_cost replace_cost r c).2.1
    (levCosts seq1 seq2 insert_cost delete_cost replace_cost r c).2.2 r c

/-- Total cost of the edit operations implied by an alignment: 0 for a diagonal
pair of equal elements, `replace_cost` for a mismatched diagonal pair,
`insert_cost` for `(absent, b)`, `delete_cost` for `(a, absent)`. -/
def alignmentCost (insert_cost delete_cost replace_cost : Nat) : List (Pair α) → Nat
  | [] => 0
  | (some item1, some item2) :: rest =>
      (if item1 ≠ item2 then replace_cost else 0) +
        alignmentCost insert_cost delete_cost replace_cost rest
  | (none, some _) :: rest => insert_cost + alignmentCost insert_cost delete_cost replace_cost rest
  | (some _, none) :: rest => delete_cost + alignmentCost insert_cost delete_cost replace_cost rest
  | (none, none) :: rest => alignmentCost insert_cost delete_cost replace_cost rest

/-- The non-gap left components of an alignment, in order. -/
def leftOf : List (Pair α) → List α := fun al => al.filterMap (fun p => p.1)

/-- The non-gap right components of an alignment, in order. -/
def rightOf : List (Pair α) → List α := fun al => al.filterMap (fun p => p.2)

/-- Reference form of `align`'s backtracking walk from cell `(r, c)`: follows the
first minimal predecessor (insert, delete, replace order) down to a boundary,
then flushes the remaining prefix. -/
def btPath (seq1 seq2 : List α) (insert_cost delete_cost replace_cost : Nat) :
    Nat → Nat → List (Pair α)
  | r, c =>
    if h : 0 < r ∧ 0 < c then
      if (levCosts seq1 seq2 insert_cost delete_cost replace_cost r c).1 ≤
            (levCosts seq1 seq2 insert_cost delete_cost replace_cost r c).2.1 ∧
          (levCosts seq1 seq2 insert_cost delete_cost replace_cost r c).1 ≤
            (levCosts seq1 seq2 insert_cost delete_cost replace_cost r c).2.2 then
        btPath seq1 seq2 insert_cost delete_cost replace_cost (r - 1) c ++
          [((none : Option α), some (seq2.getD (r - 1) default))]
      else if (levCosts seq1 seq2 insert_cost delete_cost replace_cost r c).2.1 ≤
            (levCosts seq1 seq2 insert_cost delete_cost replace_cost r c).1 ∧
          (levCosts seq1 seq2 insert_cost delete_cost replace_cost r c).2.1 ≤
            (levCosts seq1 seq2 insert_cost delete_cost replace_cost r c).2.2 then
        btPath seq1 seq2 insert_cost delete_cost replace_cost r (c - 1) ++
          [(some (seq1.getD (c - 1) default), (none : Option α))]
      else
        btPath seq1 seq2 insert_cost delete_cost replace_cost (r - 1) (c - 1) ++
          [(some (seq1.getD (c - 1) default), some (seq2.getD (r - 1) default))]
    else flushAt seq1 seq2 r c []
termination_by r c => r + c
decreasing_by all_goals omega

/-- Reference form of `align_all`'s DFS from cell `(r, c)` with accumulated suffix
`q`: because the work stack is LIFO and predecessors are pushed in insert,
delete, replace order, the replace branch is explored first and the insert
branch last. -/
def pathsFrom (seq1 seq2 : List α) (insert_cost delete_cost replace_cost : Nat) :
    Nat → Nat → List (Pair α) → List (List (Pair α))
  | r, c, q =>
    if h : 0 < r ∧ 0 < c then
      (if (levCosts seq1 seq2 insert_cost delete_cost replace_cost r c).2.2 =
            lev seq1 seq2 insert_cost delete_cost replace_cost r c then
         pathsFrom seq1 seq2 insert_cost delete_cost replace_cost (r - 1) (c - 1)
           ((some (seq1.getD (c - 1) default), some (seq2.getD (r - 1) default)) :: q)
       else []) ++
      (if (levCosts seq1 seq2 insert_cost delete_cost replace_cost r c).2.1 =
            lev seq1 seq2 insert_cost delete_cost replace_cost r c then
         pathsFrom seq1 seq2 insert_cost delete_cost replace_cost r (c - 1)
           ((some (seq1.getD (c - 1) default), (none : Option α)) :: q)
       else []) ++
      (if (levCosts seq1 seq2 insert_cost delete_cost replace_cost r c).1 =
            lev seq1 seq2 insert_cost delete_cost replace_cost r c then
         pathsFrom seq1 seq2 insert_cost delete_cost replace_cost (r - 1) c
           (((none : Option α), some (seq2.getD (r - 1) default)) :: q)
       else [])
    else [flushAt seq1 seq2 r c q]
termination_by r c q => r + c
decreasing_by all_goals omega

/-- Termination measure of the DFS work stack. -/
def stackMeasure : List (Nat × Nat × List (Pair α)) → Nat
  | [] => 0
  | (r, c, _) :: rest => 4 ^ (r + c) + stackMeasure rest

/-- The set of cells already written by a DP fill that has processed the full
columns `1..c0` and, in column `c0 + 1`, the rows `1..r0`. -/
def written (len2 c0 r0 : Nat) (r c : Nat) : Prop :=
  (1 ≤ r ∧ r ≤ len2 ∧ 1 ≤ c ∧ c ≤ c0) ∨ (c = c0 + 1 ∧ 1 ≤ r ∧ r ≤ r0)

/-- Final memo value of an interior cell, for a fill whose per-cell memo rule is
`g` (arguments of `g`: previous memo value of the cell, the three neighbouring
table values, the two items, and the cell coordinates). -/
def memoVal {β : Type} (g : β → Nat → Nat → Nat → α → α → Nat → Nat → β)
    (fv : Nat → Nat → Nat → α → α → Nat) (T0 : Nat → Nat → Nat) (M0 : Nat → Nat → β)
    (seq1 seq2 : List α) (r c : Nat) : β :=
  g (M0 r c) (cellFV fv T0 seq1 seq2 (r - 1) c) (cellFV fv T0 seq1 seq2 r (c - 1))
    (cellFV fv T0 seq1 seq2 (r - 1) (c - 1)) (seq1.getD (c - 1) default)
    (seq2.getD (r - 1) default) r c

/-- Mid-fill invariant: the written cells hold their final values, all other
cells still hold their initial values. -/
def fillInv {σ β : Type} (Tof : σ → Nat → Nat → Nat) (Mof : σ → Nat → Nat → β)
    (fv : Nat → Nat → Nat → α → α → Nat) (g : β → Nat → Nat → Nat → α → α → Nat → Nat → β)
    (seq1 seq2 : List α) (s0 : σ) (c0 r0 : Nat) (s : σ) : Prop :=
  (∀ r c, written seq2.length c0 r0 r c →
      Tof s r c = cellFV fv (Tof s0) seq1 seq2 r c ∧
      Mof s r c = memoVal g fv (Tof s0) (Mof s0) seq1 seq2 r c) ∧
  (∀ r c, ¬ written seq2.length c0 r0 r c →
      Tof s r c = Tof s0 r c ∧ Mof s r c = Mof s0 r c)

/-- Memo rule of `align` in the shape expected by `memoVal`: the new memo value of
cell `(r, c)` is the first minimal predecessor, cast to the `Int` pairs the memo
table stores. -/
def gAlign (insert_cost delete_cost replace_cost : Nat) :
    (Int × Int) → Nat → Nat → Nat → α → α → Nat → Nat → Int × Int :=
  fun _ a b d item1 item2 r c =>
    (((chooseNat (a + insert_cost) (b + delete_cost)
        (d + if item1 ≠ item2 then replace_cost else 0) r c).1 : Int),
     ((chooseNat (a + insert_cost) (b + delete_cost)
        (d + if item1 ≠ item2 then replace_cost else 0) r c).2 : Int))

/-- Memo rule of `align_all` in the shape expected by `memoVal`: all minimal
predecessors are appended to the cell's previous (empty) list. -/
def gAll (insert_cost delete_cost replace_cost : Nat) :
    List (Nat × Nat) → Nat → Nat → Nat → α → α → Nat → Nat → List (Nat × Nat) :=
  fun old a b d item1 item2 r c =>
    old ++ predsOf (a + insert_cost) (b + delete_cost)
      (d + if item1 ≠ item2 then replace_cost else 0) r c

theorem cellFV_zero_left (fv : Nat → Nat → Nat → α → α → Nat) (T0 : Nat → Nat → Nat)
    (seq1 seq2 : List α) (c : Nat) : cellFV fv T0 seq1 seq2 0 c = T0 0 c := by
  simp [cellFV]

theorem cellFV_zero_right (fv : Nat → Nat → Nat → α → α → Nat) (T0 : Nat → Nat → Nat)
    (seq1 seq2 : List α) (r : Nat) : cellFV fv T0 seq1 seq2 r 0 = T0 r 0 := by
  cases r <;> simp [cellFV]

theorem cellFV_succ_succ (fv : Nat → Nat → Nat → α → α → Nat) (T0 : Nat → Nat → Nat)
    (seq1 seq2 : List α) (r c : Nat) :
    cellFV fv T0 seq1 seq2 (r + 1) (c + 1) =
      fv (cellFV fv T0 seq1 seq2 r (c + 1)) (cellFV fv T0 seq1 seq2 (r + 1) c)
        (cellFV fv T0 seq1 seq2 r c) (seq1.getD c default) (seq2.getD r default) := by
  simp [cellFV]

theorem cellFV_interior (fv : Nat → Nat → Nat → α → α → Nat) (T0 : Nat → Nat → Nat)
    (seq1 seq2 : List α) {r c : Nat} (hr : 0 < r) (hc : 0 < c) :
    cellFV fv T0 seq1 seq2 r c =
      fv (cellFV fv T0 seq1 seq2 (r - 1) c) (cellFV fv T0 seq1 seq2 r (c - 1))
        (cellFV fv T0 seq1 seq2 (r - 1) (c - 1)) (seq1.getD (c - 1) default)
        (seq2.getD (r - 1) default) := by
  obtain ⟨r', rfl⟩ : ∃ r', r = r' + 1 := ⟨r - 1, by omega⟩
  obtain ⟨c', rfl⟩ : ∃ c', c = c' + 1 := ⟨c - 1, by omega⟩
  simpa using cellFV_succ_succ fv T0 seq1 seq2 r' c'

theorem upd_self {β : Type} (t : Nat → Nat → β) (r c : Nat) (v : β) :
    upd t r c v r c = v := by
  simp [upd]

theorem upd_ne {β : Type} (t : Nat → Nat → β) (r c : Nat) (v : β) {r' c' : Nat}
    (h : ¬ (r' = r ∧ c' = c)) : upd t r c v r' c' = t r' c' := by
  simp only [upd]
  rw [if_neg h]

theorem fillInv_step {σ β : Type} (body : σ → Nat → Nat → α → α → σ)
    (Tof : σ → Nat → Nat → Nat) (Mof : σ → Nat → Nat → β)
    (fv : Nat → Nat → Nat → α → α → Nat) (g : β → Nat → Nat → Nat → α → α → Nat → Nat → β)
    (seq1 seq2 : List α) (s0 : σ)
    (HT : ∀ s r c i1 i2, Tof (body s r c i1 i2) =
      upd (Tof s) (r + 1) (c + 1) (fv (Tof s r (c + 1)) (Tof s (r + 1) c) (Tof s r c) i1 i2))
    (HM : ∀ s r c i1 i2, Mof (body s r c i1 i2) =
      upd (Mof s) (r + 1) (c + 1)
        (g (Mof s (r + 1) (c + 1)) (Tof s r (c + 1)) (Tof s (r + 1) c) (Tof s r c) i1 i2
          (r + 1) (c + 1)))
    {s : σ} {c0 r0 : Nat} (hr0 : r0 < seq2.length) (hc0 : c0 < seq1.length)
    (hinv : fillInv Tof Mof fv g seq1 seq2 s0 c0 r0 s) :
    fillInv Tof Mof fv g seq1 seq2 s0 c0 (r0 + 1)
      (body s r0 c0 (seq1.getD c0 default) (seq2.getD r0 default)) := by
  obtain ⟨hIn, hOut⟩ := hinv
  have hA : Tof s r0 (c0 + 1) = cellFV fv (Tof s0) seq1 seq2 r0 (c0 + 1) := by
    rcases Nat.eq_zero_or_pos r0 with h0 | h0
    · subst h0
      rw [(hOut 0 (c0 + 1) (by unfold written; omega)).1, cellFV_zero_left]
    · exact (hIn r0 (c0 + 1) (by unfold written; omega)).1
  have hB : Tof s (r0 + 1) c0 = cellFV fv (Tof s0) seq1 seq2 (r0 + 1) c0 := by
    rcases Nat.eq_zero_or_pos c0 with h0 | h0
    · subst h0
      rw [(hOut (r0 + 1) 0 (by unfold written; omega)).1, cellFV_zero_right]
    · exact (hIn (r0 + 1) c0 (by unfold written; omega)).1
  have hD : Tof s r0 c0 = cellFV fv (Tof s0) seq1 seq2 r0 c0 := by
    rcases Nat.eq_zero_or_pos r0 with h0 | h0
    · subst h0
      rw [(hOut 0 c0 (by unfold written; omega)).1, cellFV_zero_left]
    · rcases Nat.eq_zero_or_pos c0 with h1 | h1
      · subst h1
        rw [(hOut r0 0 (by unfold written; omega)).1, cellFV_zero_right]
      · exact (hIn r0 c0 (by unfold written; omega)).1
  have hM0 : Mof s (r0 + 1) (c0 + 1) = Mof s0 (r0 + 1) (c0 + 1) :=
    (hOut (r0 + 1) (c0 + 1) (by unfold written; omega)).2
  constructor
  · intro r c hw
    by_cases hcel : r = r0 + 1 ∧ c = c0 + 1
    · obtain ⟨rfl, rfl⟩ := hcel
      constructor
      · rw [HT, upd_self, hA, hB, hD, cellFV_succ_succ]
      · rw [HM, upd_self, hA, hB, hD, hM0]
        unfold memoVal
        simp
    · have hw' : written seq2.length c0 r0 r c := by unfold written at hw ⊢; omega
      have h1 := hIn r c hw'
      rw [HT, HM, upd_ne _ _ _ _ hcel, upd_ne _ _ _ _ hcel]
      exact h1
  · intro r c hnw
    have hnw' : ¬ written seq2.length c0 r0 r c := by unfold written at hnw ⊢; omega
    have hne : ¬ (r = r0 + 1 ∧ c = c0 + 1) := by unfold written at hnw; omega
    have h1 := hOut r c hnw'
    rw [HT, HM, upd_ne _ _ _ _ hne, upd_ne _ _ _ _ hne]
    exact h1

theorem innerLoop_char {σ β : Type} (body : σ → Nat → Nat → α → α → σ)
    (Tof : σ → Nat → Nat → Nat) (Mof : σ → Nat → Nat → β)
    (fv : Nat → Nat → Nat → α → α → Nat) (g : β → Nat → Nat → Nat → α → α → Nat → Nat → β)
    (seq1 seq2 : List α) (s0 : σ)
    (HT : ∀ s r c i1 i2, Tof (body s r c i1 i2) =
      upd (Tof s) (r + 1) (c + 1) (fv (Tof s r (c + 1)) (Tof s (r + 1) c) (Tof s r c) i1 i2))
    (HM : ∀ s r c i1 i2, Mof (body s r c i1 i2) =
      upd (Mof s) (r + 1) (c + 1)
        (g (Mof s (r + 1) (c + 1)) (Tof s r (c + 1)) (Tof s (r + 1) c) (Tof s r c) i1 i2
          (r + 1) (c + 1))) :
    ∀ (rest2 : List α) (r0 : Nat) (s : σ) {c0 : Nat},
      rest2 = seq2.drop r0 → r0 ≤ seq2.length → c0 < seq1.length →
      fillInv Tof Mof fv g seq1 seq2 s0 c0 r0 s →
      fillInv Tof Mof fv g seq1 seq2 s0 c0 seq2.length
        (innerLoop body (seq1.getD c0 default) c0 rest2 r0 s) := by
  intro rest2
  induction rest2 with
  | nil =>
    intro r0 s c0 hrest hr0 hc0 hinv
    have h1 : seq2.length ≤ r0 := List.drop_eq_nil_iff.mp hrest.symm
    have h2 : r0 = seq2.length := by omega
    subst h2
    simpa [innerLoop] using hinv
  | cons item2 rest' IH =>
    intro r0 s c0 hrest hr0 hc0 hinv
    have hlt : r0 < seq2.length := by
      by_contra h
      rw [List.drop_eq_nil_iff.mpr (by omega)] at hrest
      exact (List.cons_ne_nil _ _) hrest
    have hdrop := List.drop_eq_getElem_cons (l := seq2) (n := r0) hlt
    have hinj := hrest.trans hdrop
    rw [List.cons.injEq] at hinj
    obtain ⟨h1, h2⟩ := hinj
    have hitem : item2 = seq2.getD r0 default := by
      rw [h1, List.getD_eq_getElem]
    simp only [innerLoop]
    rw [hitem]
    exact IH (r0 + 1) _ h2 (by omega) hc0
      (fillInv_step body Tof Mof fv g seq1 seq2 s0 HT HM hlt hc0 hinv)

theorem fillInv_shift {σ β : Type} (Tof : σ → Nat → Nat → Nat) (Mof : σ → Nat → Nat → β)
    (fv : Nat → Nat → Nat → α → α → Nat) (g : β → Nat → Nat → Nat → α → α → Nat → Nat → β)
    (seq1 seq2 : List α) (s0 : σ) {s : σ} {c0 : Nat}
    (h : fillInv Tof Mof fv g seq1 seq2 s0 c0 seq2.length s) :
    fillInv Tof Mof fv g seq1 seq2 s0 (c0 + 1) 0 s := by
  obtain ⟨hIn, hOut⟩ := h
  constructor
  · intro r c hw
    exact hIn r c (by unfold written at hw ⊢; omega)
  · intro r c hnw
    exact hOut r c (by unfold written at hnw ⊢; omega)

theorem outerLoop_char {σ β : Type} (body : σ → Nat → Nat → α → α → σ)
    (Tof : σ → Nat → Nat → Nat) (Mof : σ → Nat → Nat → β)
    (fv : Nat → Nat → Nat → α → α → Nat) (g : β → Nat → Nat → Nat → α → α → Nat → Nat → β)
    (seq1 seq2 : List α) (s0 : σ)
    (HT : ∀ s r c i1 i2, Tof (body s r c i1 i2) =
      upd (Tof s) (r + 1) (c + 1) (fv (Tof s r (c + 1)) (Tof s (r + 1) c) (Tof s r c) i1 i2))
    (HM : ∀ s r c i1 i2, Mof (body s r c i1 i2) =
      upd (Mof s) (r + 1) (c + 1)
        (g (Mof s (r + 1) (c + 1)) (Tof s r (c + 1)) (Tof s (r + 1) c) (Tof s r c) i1 i2
          (r + 1) (c + 1))) :
    ∀ (rest1 : List α) (c0 : Nat) (s : σ),
      rest1 = seq1.drop c0 → c0 ≤ seq1.length →
      fillInv Tof Mof fv g seq1 seq2 s0 c0 0 s →
      fillInv Tof Mof fv g seq1 seq2 s0 seq1.length 0 (outerLoop body seq2 rest1 c0 s) := by
  intro rest1
  induction rest1 with
  | nil =>
    intro c0 s hrest hc0 hinv
    have h1 : seq1.length ≤ c0 := List.drop_eq_nil_iff.mp hrest.symm
    have h2 : c0 = seq1.length := by omega
    subst h2
    simpa [outerLoop] using hinv
  | cons item1 rest' IH =>
    intro c0 s hrest hc0 hinv
    have hlt : c0 < seq1.length := by
      by_contra h
      rw [List.drop_eq_nil_iff.mpr (by omega)] at hrest
      exact (List.cons_ne_nil _ _) hrest
    have hdrop := List.drop_eq_getElem_cons (l := seq1) (n := c0) hlt
    have hinj := hrest.trans hdrop
    rw [List.cons.injEq] at hinj
    obtain ⟨h1, h2⟩ := hinj
    have hitem : item1 = seq1.getD c0 default := by
      rw [h1, List.getD_eq_getElem]
    simp only [outerLoop]
    rw [hitem]
    refine IH (c0 + 1) _ h2 (by omega) ?_
    exact fillInv_shift Tof Mof fv g seq1 seq2 s0
      (innerLoop_char body Tof Mof fv g seq1 seq2 s0 HT HM seq2 0 s rfl (by omega) hlt hinv)

theorem runFill_char {σ β : Type} (body : σ → Nat → Nat → α → α → σ)
    (Tof : σ → Nat → Nat → Nat) (Mof : σ → Nat → Nat → β)
    (fv : Nat → Nat → Nat → α → α → Nat) (g : β → Nat → Nat → Nat → α → α → Nat → Nat → β)
    (seq1 seq2 : List α) (s0 : σ)
    (HT : ∀ s r c i1 i2, Tof (body s r c i1 i2) =
      upd (Tof s) (r + 1) (c + 1) (fv (Tof s r (c + 1)) (Tof s (r + 1) c) (Tof s r c) i1 i2))
    (HM : ∀ s r c i1 i2, Mof (body s r c i1 i2) =
      upd (Mof s) (r + 1) (c + 1)
        (g (Mof s (r + 1) (c + 1)) (Tof s r (c + 1)) (Tof s (r + 1) c) (Tof s r c) i1 i2
          (r + 1) (c + 1))) :
    fillInv Tof Mof fv g seq1 seq2 s0 seq1.length 0 (runFill body seq1 seq2 s0) := by
  apply outerLoop_char body Tof Mof fv g seq1 seq2 s0 HT HM seq1 0 s0 rfl (by omega)
  constructor
  · intro r c hw
    exact absurd hw (by unfold written; omega)
  · intro r c _
    exact ⟨rfl, rfl⟩

theorem runFill_table {σ β : Type} (body : σ → Nat → Nat → α → α → σ)
    (Tof : σ → Nat → Nat → Nat) (Mof : σ → Nat → Nat → β)
    (fv : Nat → Nat → Nat → α → α → Nat) (g : β → Nat → Nat → Nat → α → α → Nat → Nat → β)
    (seq1 seq2 : List α) (s0 : σ)
    (HT : ∀ s r c i1 i2, Tof (body s r c i1 i2) =
      upd (Tof s) (r + 1) (c + 1) (fv (Tof s r (c + 1)) (Tof s (r + 1) c) (Tof s r c) i1 i2))
    (HM : ∀ s r c i1 i2, Mof (body s r c i1 i2) =
      upd (Mof s) (r + 1) (c + 1)
        (g (Mof s (r + 1) (c + 1)) (Tof s r (c + 1)) (Tof s (r + 1) c) (Tof s r c) i1 i2
          (r + 1) (c + 1)))
    {r c : Nat} (hr : r ≤ seq2.length) (hc : c ≤ seq1.length) :
    Tof (runFill body seq1 seq2 s0) r c = cellFV fv (Tof s0) seq1 seq2 r c := by
  obtain ⟨hIn, hOut⟩ := runFill_char body Tof Mof fv g seq1 seq2 s0 HT HM
  rcases Nat.eq_zero_or_pos r with h0 | h0
  · subst h0
    rw [(hOut 0 c (by unfold written; omega)).1, cellFV_zero_left]
  · rcases Nat.eq_zero_or_pos c with h1 | h1
    · subst h1
      rw [(hOut r 0 (by unfold written; omega)).1, cellFV_zero_right]
    · exact (hIn r c (by unfold written; omega)).1

theorem runFill_memo {σ β : Type} (body : σ → Nat → Nat → α → α → σ)
    (Tof : σ → Nat → Nat → Nat) (Mof : σ → Nat → Nat → β)
    (fv : Nat → Nat → Nat → α → α → Nat) (g : β → Nat → Nat → Nat → α → α → Nat → Nat → β)
    (seq1 seq2 : List α) (s0 : σ)
    (HT : ∀ s r c i1 i2, Tof (body s r c i1 i2) =
      upd (Tof s) (r + 1) (c + 1) (fv (Tof s r (c + 1)) (Tof s (r + 1) c) (Tof s r c) i1 i2))
    (HM : ∀ s r c i1 i2, Mof (body s r c i1 i2) =
      upd (Mof s) (r + 1) (c + 1)
        (g (Mof s (r + 1) (c + 1)) (Tof s r (c + 1)) (Tof s (r + 1) c) (Tof s r c) i1 i2
          (r + 1) (c + 1)))
    {r c : Nat} (hr1 : 1 ≤ r) (hr : r ≤ seq2.length) (hc1 : 1 ≤ c) (hc : c ≤ seq1.length) :
    Mof (runFill body seq1 seq2 s0) r c = memoVal g fv (Tof s0) (Mof s0) seq1 seq2 r c := by
  obtain ⟨hIn, _⟩ := runFill_char body Tof Mof fv g seq1 seq2 s0 HT HM
  exact (hIn r c (by unfold written; omega)).2

theorem minChain (ci cd cr : Nat) :
    min (min ci cd) cr =
      if ci ≤ cd ∧ ci ≤ cr then ci else if cd ≤ ci ∧ cd ≤ cr then cd else cr := by
  split_ifs <;> omega

theorem distBody_HT (insert_cost delete_cost replace_cost : Nat) :
    ∀ (s : Nat → Nat → Nat) (r c : Nat) (i1 i2 : α),
      distBody insert_cost delete_cost replace_cost s r c i1 i2 =
        upd s (r + 1) (c + 1)
          (fvFlat insert_cost delete_cost replace_cost (s r (c + 1)) (s (r + 1) c) (s r c) i1 i2) := by
  intro s r c i1 i2
  rfl

theorem alignBody_fst (insert_cost delete_cost replace_cost : Nat) :
    ∀ (s : (Nat → Nat → Nat) × (Nat → Nat → Int × Int)) (r c : Nat) (i1 i2 : α),
      (alignBody insert_cost delete_cost replace_cost s r c i1 i2).1 =
        upd s.1 (r + 1) (c + 1)
          (fvFlat insert_cost delete_cost replace_cost
            (s.1 r (c + 1)) (s.1 (r + 1) c) (s.1 r c) i1 i2) := by
  intro s r c i1 i2
  simp only [alignBody, fvFlat]
  generalize (if i1 ≠ i2 then replace_cost else 0) = rt
  split_ifs with h1 h2 h3
  · rw [minChain, if_pos h1]
  · rw [minChain, if_neg h1, if_pos h2]
  · rw [minChain, if_neg h1, if_neg h2]
  · exfalso
    omega

theorem alignBody_snd (insert_cost delete_cost replace_cost : Nat) :
    ∀ (s : (Nat → Nat → Nat) × (Nat → Nat → Int × Int)) (r c : Nat) (i1 i2 : α),
      (alignBody insert_cost delete_cost replace_cost s r c i1 i2).2 =
        upd s.2 (r + 1) (c + 1)
          (gAlign insert_cost delete_cost replace_cost
            (s.2 (r + 1) (c + 1)) (s.1 r (c + 1)) (s.1 (r + 1) c) (s.1 r c) i1 i2
            (r + 1) (c + 1)) := by
  intro s r c i1 i2
  simp only [alignBody, gAlign, chooseNat, Nat.add_sub_cancel]
  generalize (if i1 ≠ i2 then replace_cost else 0) = rt
  split_ifs with h1 h2 h3
  · rfl
  · rfl
  · rfl
  · exfalso
    omega

theorem alignAllBody_fst (insert_cost delete_cost replace_cost : Nat) :
    ∀ (s : (Nat → Nat → Nat) × (Nat → Nat → List (Nat × Nat))) (r c : Nat) (i1 i2 : α),
      (alignAllBody insert_cost delete_cost replace_cost s r c i1 i2).1 =
        upd s.1 (r + 1) (c + 1)
          (fvFlat insert_cost delete_cost replace_cost
            (s.1 r (c + 1)) (s.1 (r + 1) c) (s.1 r c) i1 i2) := by
  intro s r c i1 i2
  rfl

theorem alignAllBody_snd (insert_cost delete_cost replace_cost : Nat) :
    ∀ (s : (Nat → Nat → Nat) × (Nat → Nat → List (Nat × Nat))) (r c : Nat) (i1 i2 : α),
      (alignAllBody insert_cost delete_cost replace_cost s r c i1 i2).2 =
        upd s.2 (r + 1) (c + 1)
          (gAll insert_cost delete_cost replace_cost
            (s.2 (r + 1) (c + 1)) (s.1 r (c + 1)) (s.1 (r + 1) c) (s.1 r c) i1 i2
            (r + 1) (c + 1)) := by
  intro s r c i1 i2
  simp only [alignAllBody, gAll, predsOf, Nat.add_sub_cancel]

theorem distance_table_eq (str1 str2 : List α) (insert_cost delete_cost replace_cost : Nat)
    {r c : Nat} (hr : r ≤ str2.length) (hc : c ≤ str1.length) :
    distance_table str1 str2 insert_cost delete_cost replace_cost r c =
      lev str1 str2 insert_cost delete_cost replace_cost r c :=
  runFill_table (distBody insert_cost delete_cost replace_cost) (fun s => s)
    (fun _ _ _ => ()) (fvFlat insert_cost delete_cost replace_cost)
    (fun _ _ _ _ _ _ _ _ => ()) str1 str2 (flatInit insert_cost delete_cost)
    (distBody_HT insert_cost delete_cost replace_cost) (fun _ _ _ _ _ => rfl) hr hc

theorem distance_eq_lev (str1 str2 : List α) (insert_cost delete_cost replace_cost : Nat) :
    distance str1 str2 insert_cost delete_cost replace_cost =
      lev str1 str2 insert_cost delete_cost replace_cost str2.length str1.length :=
  distance_table_eq str1 str2 insert_cost delete_cost replace_cost (by omega) (by omega)

theorem alignState_fst_eq (seq1 seq2 : List α) (insert_cost delete_cost replace_cost : Nat)
    {r c : Nat} (hr : r ≤ seq2.length) (hc : c ≤ seq1.length) :
    (alignState seq1 seq2 insert_cost delete_cost replace_cost).1 r c =
      lev seq1 seq2 insert_cost delete_cost replace_cost r c :=
  runFill_table (alignBody insert_cost delete_cost replace_cost) Prod.fst Prod.snd
    (fvFlat insert_cost delete_cost replace_cost) (gAlign insert_cost delete_cost replace_cost)
    seq1 seq2 (flatInit insert_cost delete_cost, memoInit)
    (alignBody_fst insert_cost delete_cost replace_cost)
    (alignBody_snd insert_cost delete_cost replace_cost) hr hc

theorem alignState_snd_eq (seq1 seq2 : List α) (insert_cost delete_cost replace_cost : Nat)
    {r c : Nat} (hr1 : 1 ≤ r) (hr : r ≤ seq2.length) (hc1 : 1 ≤ c) (hc : c ≤ seq1.length) :
    (alignState seq1 seq2 insert_cost delete_cost replace_cost).2 r c =
      (((levChoose seq1 seq2 insert_cost delete_cost replace_cost r c).1 : Int),
       ((levChoose seq1 seq2 insert_cost delete_cost replace_cost r c).2 : Int)) := by
  have h := runFill_memo (alignBody insert_cost delete_cost replace_cost) Prod.fst Prod.snd
    (fvFlat insert_cost delete_cost replace_cost) (gAlign insert_cost delete_cost replace_cost)
    seq1 seq2 (flatInit insert_cost delete_cost, memoInit)
    (alignBody_fst insert_cost delete_cost replace_cost)
    (alignBody_snd insert_cost delete_cost replace_cost) hr1 hr hc1 hc
  unfold alignState
  rw [h]
  rfl

theorem align_all_state_fst_eq (seq1 seq2 : List α)
    (insert_cost delete_cost replace_cost : Nat)
    {r c : Nat} (hr : r ≤ seq2.length) (hc : c ≤ seq1.length) :
    (align_all_state seq1 seq2 insert_cost delete_cost replace_cost).1 r c =
      lev seq1 seq2 insert_cost delete_cost replace_cost r c :=
  runFill_table (alignAllBody insert_cost delete_cost replace_cost) Prod.fst Prod.snd
    (fvFlat insert_cost delete_cost replace_cost) (gAll insert_cost delete_cost replace_cost)
    seq1 seq2 (flatInit insert_cost delete_cost, fun _ _ => [])
    (alignAllBody_fst insert_cost delete_cost replace_cost)
    (alignAllBody_snd insert_cost delete_cost replace_cost) hr hc

theorem align_all_state_snd_eq (seq1 seq2 : List α)
    (insert_cost delete_cost replace_cost : Nat)
    {r c : Nat} (hr1 : 1 ≤ r) (hr : r ≤ seq2.length) (hc1 : 1 ≤ c) (hc : c ≤ seq1.length) :
    (align_all_state seq1 seq2 insert_cost delete_cost replace_cost).2 r c =
      levPreds seq1 seq2 insert_cost delete_cost replace_cost r c := by
  have h := runFill_memo (alignAllBody insert_cost delete_cost replace_cost) Prod.fst Prod.snd
    (fvFlat insert_cost delete_cost replace_cost) (gAll insert_cost delete_cost replace_cost)
    seq1 seq2 (flatInit insert_cost delete_cost, fun _ _ => [])
    (alignAllBody_fst insert_cost delete_cost replace_cost)
    (alignAllBody_snd insert_cost delete_cost replace_cost) hr1 hr hc1 hc
  unfold align_all_state
  rw [h]
  show [] ++ _ = _
  rw [List.nil_append]
  rfl

theorem lev_zero_left (seq1 seq2 : List α) (insert_cost delete_cost replace_cost : Nat)
    (c : Nat) : lev seq1 seq2 insert_cost delete_cost replace_cost 0 c = c * delete_cost := by
  unfold lev
  rw [cellFV_zero_left]
  simp [flatInit]

theorem lev_zero_right (seq1 seq2 : List α) (insert_cost delete_cost replace_cost : Nat)
    (r : Nat) : lev seq1 seq2 insert_cost delete_cost replace_cost r 0 = r * insert_cost := by
  unfold lev
  rw [cellFV_zero_right]
  simp [flatInit]

theorem lev_interior (seq1 seq2 : List α) (insert_cost delete_cost replace_cost : Nat)
    {r c : Nat} (hr : 0 < r) (hc : 0 < c) :
    lev seq1 seq2 insert_cost delete_cost replace_cost r c =
      min (min (levCosts seq1 seq2 insert_cost delete_cost replace_cost r c).1
          (levCosts seq1 seq2 insert_cost delete_cost replace_cost r c).2.1)
        (levCosts seq1 seq2 insert_cost delete_cost replace_cost r c).2.2 := by
  unfold lev levCosts
  rw [cellFV_interior _ _ _ _ hr hc]
  rfl

theorem mem_ite_singleton_append {γ : Type} {P : Prop} [Decidable P] {x p : γ}
    {rest : List γ} :
    p ∈ (if P then [x] else []) ++ rest ↔ (P ∧ p = x) ∨ p ∈ rest := by
  split_ifs with h <;> simp [h]

theorem mem_ite_singleton {γ : Type} {P : Prop} [Decidable P] {x p : γ} :
    p ∈ (if P then [x] else []) ↔ P ∧ p = x := by
  split_ifs with h <;> simp [h]

theorem levPreds_sound (seq1 seq2 : List α) (insert_cost delete_cost replace_cost : Nat)
    {r c : Nat} (hr : 0 < r) (hc : 0 < c) {p : Nat × Nat}
    (hp : p ∈ levPreds seq1 seq2 insert_cost delete_cost replace_cost r c) :
    (p = (r - 1, c) ∧
      (levCosts seq1 seq2 insert_cost delete_cost replace_cost r c).1 =
        lev seq1 seq2 insert_cost delete_cost replace_cost r c) ∨
    (p = (r, c - 1) ∧
      (levCosts seq1 seq2 insert_cost delete_cost replace_cost r c).2.1 =
        lev seq1 seq2 insert_cost delete_cost replace_cost r c) ∨
    (p = (r - 1, c - 1) ∧
      (levCosts seq1 seq2 insert_cost delete_cost replace_cost r c).2.2 =
        lev seq1 seq2 insert_cost delete_cost replace_cost r c) := by
  have hint := lev_interior seq1 seq2 insert_cost delete_cost replace_cost hr hc
  unfold levPreds predsOf at hp
  rw [List.append_assoc, mem_ite_singleton_append, mem_ite_singleton_append,
    mem_ite_singleton] at hp
  rcases hp with ⟨hm, rfl⟩ | ⟨hm, rfl⟩ | ⟨hm, rfl⟩
  · left
    exact ⟨rfl, by omega⟩
  · right
    left
    exact ⟨rfl, by omega⟩
  · right
    right
    exact ⟨rfl, by omega⟩

theorem levPreds_ne_nil (seq1 seq2 : List α) (insert_cost delete_cost replace_cost : Nat)
    (r c : Nat) :
    levPreds seq1 seq2 insert_cost delete_cost replace_cost r c ≠ [] := by
  unfold levPreds predsOf
  intro hnil
  rw [List.append_assoc, List.append_eq_nil, List.append_eq_nil] at hnil
  obtain ⟨hA, hB, hC⟩ := hnil
  have h3 : (levCosts seq1 seq2 insert_cost delete_cost replace_cost r c).1 =
        min (min (levCosts seq1 seq2 insert_cost delete_cost replace_cost r c).1
            (levCosts seq1 seq2 insert_cost delete_cost replace_cost r c).2.1)
          (levCosts seq1 seq2 insert_cost delete_cost replace_cost r c).2.2 ∨
      (levCosts seq1 seq2 insert_cost delete_cost replace_cost r c).2.1 =
        min (min (levCosts seq1 seq2 insert_cost delete_cost replace_cost r c).1
            (levCosts seq1 seq2 insert_cost delete_cost replace_cost r c).2.1)
          (levCosts seq1 seq2 insert_cost delete_cost replace_cost r c).2.2 ∨
      (levCosts seq1 seq2 insert_cost delete_cost replace_cost r c).2.2 =
        min (min (levCosts seq1 seq2 insert_cost delete_cost replace_cost r c).1
            (levCosts seq1 seq2 insert_cost delete_cost replace_cost r c).2.1)
          (levCosts seq1 seq2 insert_cost delete_cost replace_cost r c).2.2 := by
    omega
  rcases h3 with hm | hm | hm
  · rw [if_pos hm] at hA
    exact List.cons_ne_nil _ _ hA
  · rw [if_pos hm] at hB
    exact List.cons_ne_nil _ _ hB
  · rw [if_pos hm] at hC
    exact List.cons_ne_nil _ _ hC

theorem chooseNat_mem_predsOf (ci cd cr r c : Nat) :
    chooseNat ci cd cr r c ∈ predsOf ci cd cr r c := by
  unfold chooseNat predsOf
  rw [List.append_assoc]
  by_cases h1 : ci ≤ cd ∧ ci ≤ cr
  · rw [if_pos h1, mem_ite_singleton_append]
    left
    exact ⟨by omega, rfl⟩
  · rw [if_neg h1]
    by_cases h2 : cd ≤ ci ∧ cd ≤ cr
    · rw [if_pos h2, mem_ite_singleton_append]
      right
      rw [mem_ite_singleton_append]
      left
      exact ⟨by omega, rfl⟩
    · rw [if_neg h2, mem_ite_singleton_append]
      right
      rw [mem_ite_singleton_append]
      right
      rw [mem_ite_singleton]
      exact ⟨by omega, rfl⟩

theorem levChoose_mem_levPreds (seq1 seq2 : List α)
    (insert_cost delete_cost replace_cost : Nat) (r c : Nat) :
    levChoose seq1 seq2 insert_cost delete_cost replace_cost r c ∈
      levPreds seq1 seq2 insert_cost delete_cost replace_cost r c :=
  chooseNat_mem_predsOf _ _ _ _ _

theorem flushAt_append (seq1 seq2 : List α) (r c : Nat) (q : List (Pair α)) :
    flushAt seq1 seq2 r c q = flushAt seq1 seq2 r c [] ++ q := by
  unfold flushAt
  split_ifs <;> simp

theorem alignmentCost_append (insert_cost delete_cost replace_cost : Nat)
    (X Y : List (Pair α)) :
    alignmentCost insert_cost delete_cost replace_cost (X ++ Y) =
      alignmentCost insert_cost delete_cost replace_cost X +
        alignmentCost insert_cost delete_cost replace_cost Y := by
  induction X with
  | nil => simp [alignmentCost]
  | cons p rest IH =>
    rcases p with ⟨a, b⟩
    rcases a <;> rcases b <;> simp [alignmentCost, IH] <;> omega

theorem alignmentCost_inserts (insert_cost delete_cost replace_cost : Nat) (l : List α) :
    alignmentCost insert_cost delete_cost replace_cost
        (l.map fun b => ((none : Option α), some b)) = l.length * insert_cost := by
  induction l with
  | nil => simp [alignmentCost]
  | cons b t IH => simp [alignmentCost, IH, Nat.succ_mul]; omega

theorem alignmentCost_deletes (insert_cost delete_cost replace_cost : Nat) (l : List α) :
    alignmentCost insert_cost delete_cost replace_cost
        (l.map fun a => (some a, (none : Option α))) = l.length * delete_cost := by
  induction l with
  | nil => simp [alignmentCost]
  | cons b t IH => simp [alignmentCost, IH, Nat.succ_mul]; omega

theorem leftOf_append (X Y : List (Pair α)) : leftOf (X ++ Y) = leftOf X ++ leftOf Y :=
  List.filterMap_append X Y _

theorem rightOf_append (X Y : List (Pair α)) : rightOf (X ++ Y) = rightOf X ++ rightOf Y :=
  List.filterMap_append X Y _

theorem leftOf_inserts (l : List α) :
    leftOf (l.map fun b => ((none : Option α), some b)) = [] := by
  simp [leftOf, List.filterMap_map, Function.comp]

theorem rightOf_inserts (l : List α) :
    rightOf (l.map fun b => ((none : Option α), some b)) = l := by
  simp only [rightOf, List.filterMap_map]
  exact List.filterMap_some l

theorem leftOf_deletes (l : List α) :
    leftOf (l.map fun a => (some a, (none : Option α))) = l := by
  simp only [leftOf, List.filterMap_map]
  exact List.filterMap_some l

theorem rightOf_deletes (l : List α) :
    rightOf (l.map fun a => (some a, (none : Option α))) = [] := by
  simp [rightOf, List.filterMap_map, Function.comp]

theorem take_succ_getD (l : List α) {k : Nat} (hk : k < l.length) :
    l.take (k + 1) = l.take k ++ [l.getD k default] := by
  rw [List.take_succ, List.getD_eq_getElem l default hk, List.getElem?_eq_getElem hk]
  rfl

theorem flush_spec (seq1 seq2 : List α) (insert_cost delete_cost replace_cost : Nat)
    {r c : Nat} (hr : r ≤ seq2.length) (hc : c ≤ seq1.length) (hnot : ¬ (0 < r ∧ 0 < c))
    (q : List (Pair α)) :
    ∃ X, flushAt seq1 seq2 r c q = X ++ q ∧
      alignmentCost insert_cost delete_cost replace_cost X =
        lev seq1 seq2 insert_cost delete_cost replace_cost r c ∧
      leftOf X = seq1.take c ∧ rightOf X = seq2.take r ∧
      ∀ p ∈ X, p ≠ ((none : Option α), (none : Option α)) := by
  unfold flushAt
  by_cases hr0 : 0 < r
  · have hc0 : c = 0 := by omega
    subst hc0
    rw [if_pos hr0]
    refine ⟨(seq2.take r).map fun item2 => ((none : Option α), some item2), rfl, ?_, ?_, ?_, ?_⟩
    · rw [alignmentCost_inserts, List.length_take, lev_zero_right]
      congr 1
      omega
    · rw [leftOf_inserts]
      simp
    · rw [rightOf_inserts]
    · intro p hp
      rw [List.mem_map] at hp
      obtain ⟨b, _, hb⟩ := hp
      rw [← hb]
      simp
  · rw [if_neg hr0]
    have hr0' : r = 0 := by omega
    subst hr0'
    by_cases hc0 : 0 < c
    · rw [if_pos hc0]
      refine ⟨(seq1.take c).map fun item1 => (some item1, (none : Option α)), rfl, ?_, ?_, ?_, ?_⟩
      · rw [alignmentCost_deletes, List.length_take, lev_zero_left]
        congr 1
        omega
      · rw [leftOf_deletes]
      · rw [rightOf_deletes]
        simp
      · intro p hp
        rw [List.mem_map] at hp
        obtain ⟨b, _, hb⟩ := hp
        rw [← hb]
        simp
    · rw [if_neg hc0]
      have hc0' : c = 0 := by omega
      subst hc0'
      refine ⟨[], by simp, ?_, by simp [leftOf], by simp [rightOf], by simp⟩
      simp [alignmentCost, lev_zero_left]

theorem pathsFrom_spec (seq1 seq2 : List α) (insert_cost delete_cost replace_cost : Nat) :
    ∀ (n r c : Nat), r + c ≤ n → r ≤ seq2.length → c ≤ seq1.length →
      ∀ (q al : List (Pair α)),
        al ∈ pathsFrom seq1 seq2 insert_cost delete_cost replace_cost r c q →
        ∃ X, al = X ++ q ∧
          alignmentCost insert_cost delete_cost replace_cost X =
            lev seq1 seq2 insert_cost delete_cost replace_cost r c ∧
          leftOf X = seq1.take c ∧ rightOf X = seq2.take r ∧
          ∀ p ∈ X, p ≠ ((none : Option α), (none : Option α)) := by
  intro n
  induction n with
  | zero =>
    intro r c hn hr hc q al hal
    rw [pathsFrom, dif_neg (by omega), List.mem_singleton] at hal
    subst hal
    exact flush_spec seq1 seq2 insert_cost delete_cost replace_cost hr hc (by omega) q
  | succ n IH =>
    intro r c hn hr hc q al hal
    by_cases hpos : 0 < r ∧ 0 < c
    · obtain ⟨hrp, hcp⟩ := hpos
      rw [pathsFrom, dif_pos ⟨hrp, hcp⟩, List.append_assoc] at hal
      have hint := lev_interior seq1 seq2 insert_cost delete_cost replace_cost hrp hcp
      rcases List.mem_append.mp hal with h | h
      · by_cases hm : (levCosts seq1 seq2 insert_cost delete_cost replace_cost r c).2.2 =
            lev seq1 seq2 insert_cost delete_cost replace_cost r c
        · rw [if_pos hm] at h
          obtain ⟨X', hal', hcost', hleft', hright', hnn'⟩ :=
            IH (r - 1) (c - 1) (by omega) (by omega) (by omega) _ al h
          refine ⟨X' ++ [(some (seq1.getD (c - 1) default), some (seq2.getD (r - 1) default))],
            ?_, ?_, ?_, ?_, ?_⟩
          · rw [hal']
            simp
          · rw [alignmentCost_append, hcost']
            have h1 : alignmentCost insert_cost delete_cost replace_cost
                [((some (seq1.getD (c - 1) default) : Option α),
                  some (seq2.getD (r - 1) default))] =
                (if seq1.getD (c - 1) default ≠ seq2.getD (r - 1) default
                  then replace_cost else 0) := by
              simp [alignmentCost]
            rw [h1]
            simp only [levCosts] at hm
            omega
          · rw [leftOf_append, hleft']
            have h1 : leftOf [((some (seq1.getD (c - 1) default) : Option α),
                some (seq2.getD (r - 1) default))] = [seq1.getD (c - 1) default] := by
              simp [leftOf]
            rw [h1, ← take_succ_getD seq1 (show c - 1 < seq1.length by omega)]
            congr 1
            omega
          · rw [rightOf_append, hright']
            have h1 : rightOf [((some (seq1.getD (c - 1) default) : Option α),
                some (seq2.getD (r - 1) default))] = [seq2.getD (r - 1) default] := by
              simp [rightOf]
            rw [h1, ← take_succ_getD seq2 (show r - 1 < seq2.length by omega)]
            congr 1
            omega
          · intro p hp
            rcases List.mem_append.mp hp with hp1 | hp1
            · exact hnn' p hp1
            · rw [List.mem_singleton] at hp1
              subst hp1
              simp
        · rw [if_neg hm] at h
          simp at h
      · rcases List.mem_append.mp h with h2 | h2
        · by_cases hm : (levCosts seq1 seq2 insert_cost delete_cost replace_cost r c).2.1 =
              lev seq1 seq2 insert_cost delete_cost replace_cost r c
          · rw [if_pos hm] at h2
            obtain ⟨X', hal', hcost', hleft', hright', hnn'⟩ :=
              IH r (c - 1) (by omega) (by omega) (by omega) _ al h2
            refine ⟨X' ++ [(some (seq1.getD (c - 1) default), (none : Option α))],
              ?_, ?_, ?_, ?_, ?_⟩
            · rw [hal']
              simp
            · rw [alignmentCost_append, hcost']
              have h1 : alignmentCost insert_cost delete_cost replace_cost
                  [((some (seq1.getD (c - 1) default) : Option α), (none : Option α))] =
                  delete_cost := by
                simp [alignmentCost]
              rw [h1]
              simp only [levCosts] at hm
              omega
            · rw [leftOf_append, hleft']
              have h1 : leftOf [((some (seq1.getD (c - 1) default) : Option α),
                  (none : Option α))] = [seq1.getD (c - 1) default] := by
                simp [leftOf]
              rw [h1, ← take_succ_getD seq1 (show c - 1 < seq1.length by omega)]
              congr 1
              omega
            · rw [rightOf_append, hright']
              have h1 : rightOf [((some (seq1.getD (c - 1) default) : Option α),
                  (none : Option α))] = ([] : List α) := by
                simp [rightOf]
              rw [h1]
              simp
            · intro p hp
              rcases List.mem_append.mp hp with hp1 | hp1
              · exact hnn' p hp1
              · rw [List.mem_singleton] at hp1
                subst hp1
                simp
          · rw [if_neg hm] at h2
            simp at h2
        · by_cases hm : (levCosts seq1 seq2 insert_cost delete_cost replace_cost r c).1 =
              lev seq1 seq2 insert_cost delete_cost replace_cost r c
          · rw [if_pos hm] at h2
            obtain ⟨X', hal', hcost', hleft', hright', hnn'⟩ :=
              IH (r - 1) c (by omega) (by omega) (by omega) _ al h2
            refine ⟨X' ++ [((none : Option α), some (seq2.getD (r - 1) default))],
              ?_, ?_, ?_, ?_, ?_⟩
            · rw [hal']
              simp
            · rw [alignmentCost_append, hcost']
              have h1 : alignmentCost insert_cost delete_cost replace_cost
                  [((none : Option α), (some (seq2.getD (r - 1) default) : Option α))] =
                  insert_cost := by
                simp [alignmentCost]
              rw [h1]
              simp only [levCosts] at hm
              omega
            · rw [leftOf_append, hleft']
              have h1 : leftOf [((none : Option α),
                  (some (seq2.getD (r - 1) default) : Option α))] = ([] : List α) := by
                simp [leftOf]
              rw [h1]
              simp
            · rw [rightOf_append, hright']
              have h1 : rightOf [((none : Option α),
                  (some (seq2.getD (r - 1) default) : Option α))] =
                  [seq2.getD (r - 1) default] := by
                simp [rightOf]
              rw [h1, ← take_succ_getD seq2 (show r - 1 < seq2.length by omega)]
              congr 1
              omega
            · intro p hp
              rcases List.mem_append.mp hp with hp1 | hp1
              · exact hnn' p hp1
              · rw [List.mem_singleton] at hp1
                subst hp1
                simp
          · rw [if_neg hm] at h2
            simp at h2
    · rw [pathsFrom, dif_neg hpos, List.mem_singleton] at hal
      subst hal
      exact flush_spec seq1 seq2 insert_cost delete_cost replace_cost hr hc hpos q

theorem btPath_mem_pathsFrom (seq1 seq2 : List α) (insert_cost delete_cost replace_cost : Nat) :
    ∀ (n r c : Nat), r + c ≤ n → r ≤ seq2.length → c ≤ seq1.length →
      ∀ q, btPath seq1 seq2 insert_cost delete_cost replace_cost r c ++ q ∈
        pathsFrom seq1 seq2 insert_cost delete_cost replace_cost r c q := by
  intro n
  induction n with
  | zero =>
    intro r c hn hr hc q
    rw [btPath, dif_neg (by omega), pathsFrom, dif_neg (by omega), List.mem_singleton,
      ← flushAt_append]
  | succ n IH =>
    intro r c hn hr hc q
    by_cases hpos : 0 < r ∧ 0 < c
    · obtain ⟨hrp, hcp⟩ := hpos
      have hint := lev_interior seq1 seq2 insert_cost delete_cost replace_cost hrp hcp
      by_cases h1 : (levCosts seq1 seq2 insert_cost delete_cost replace_cost r c).1 ≤
            (levCosts seq1 seq2 insert_cost delete_cost replace_cost r c).2.1 ∧
          (levCosts seq1 seq2 insert_cost delete_cost replace_cost r c).1 ≤
            (levCosts seq1 seq2 insert_cost delete_cost replace_cost r c).2.2
      · rw [btPath, dif_pos ⟨hrp, hcp⟩, if_pos h1, pathsFrom, dif_pos ⟨hrp, hcp⟩]
        apply List.mem_append_right
        rw [if_pos (show (levCosts seq1 seq2 insert_cost delete_cost replace_cost r c).1 =
          lev seq1 seq2 insert_cost delete_cost replace_cost r c by omega)]
        rw [List.append_assoc, List.singleton_append]
        exact IH (r - 1) c (by omega) (by omega) hc _
      · by_cases h2 : (levCosts seq1 seq2 insert_cost delete_cost replace_cost r c).2.1 ≤
              (levCosts seq1 seq2 insert_cost delete_cost replace_cost r c).1 ∧
            (levCosts seq1 seq2 insert_cost delete_cost replace_cost r c).2.1 ≤
              (levCosts seq1 seq2 insert_cost delete_cost replace_cost r c).2.2
        · rw [btPath, dif_pos ⟨hrp, hcp⟩, if_neg h1, if_pos h2, pathsFrom, dif_pos ⟨hrp, hcp⟩]
          apply List.mem_append_left
          apply List.mem_append_right
          rw [if_pos (show (levCosts seq1 seq2 insert_cost delete_cost replace_cost r c).2.1 =
            lev seq1 seq2 insert_cost delete_cost replace_cost r c by omega)]
          rw [List.append_assoc, List.singleton_append]
          exact IH r (c - 1) (by omega) hr (by omega) _
        · rw [btPath, dif_pos ⟨hrp, hcp⟩, if_neg h1, if_neg h2, pathsFrom, dif_pos ⟨hrp, hcp⟩]
          apply List.mem_append_left
          apply List.mem_append_left
          rw [if_pos (show (levCosts seq1 seq2 insert_cost delete_cost replace_cost r c).2.2 =
            lev seq1 seq2 insert_cost delete_cost replace_cost r c by omega)]
          rw [List.append_assoc, List.singleton_append]
          exact IH (r - 1) (c - 1) (by omega) (by omega) (by omega) _
    · rw [btPath, dif_neg hpos, pathsFrom, dif_neg hpos, List.mem_singleton, ← flushAt_append]

theorem backtrackLoop_eq_btPath (seq1 seq2 : List α)
    (insert_cost delete_cost replace_cost : Nat) :
    ∀ (fuel r c : Nat), r + c ≤ fuel → r ≤ seq2.length → c ≤ seq1.length →
      ∀ q, backtrackLoop (alignState seq1 seq2 insert_cost delete_cost replace_cost).2
          seq1 seq2 fuel r c q =
        btPath seq1 seq2 insert_cost delete_cost replace_cost r c ++ q := by
  intro fuel
  induction fuel with
  | zero =>
    intro r c hn hr hc q
    have hr0 : r = 0 := by omega
    have hc0 : c = 0 := by omega
    subst hr0
    subst hc0
    have hL : backtrackLoop (alignState seq1 seq2 insert_cost delete_cost replace_cost).2
        seq1 seq2 0 0 0 q = q := rfl
    rw [hL, btPath, dif_neg (by omega)]
    simp [flushAt]
  | succ fuel IH =>
    intro r c hn hr hc q
    by_cases hpos : 0 < r ∧ 0 < c
    · obtain ⟨hrp, hcp⟩ := hpos
      have hint := lev_interior seq1 seq2 insert_cost delete_cost replace_cost hrp hcp
      have hmemo := alignState_snd_eq seq1 seq2 insert_cost delete_cost replace_cost
        hrp hr hcp hc
      simp only [backtrackLoop]
      rw [if_pos ⟨hrp, hcp⟩, hmemo]
      by_cases h1 : (levCosts seq1 seq2 insert_cost delete_cost replace_cost r c).1 ≤
            (levCosts seq1 seq2 insert_cost delete_cost replace_cost r c).2.1 ∧
          (levCosts seq1 seq2 insert_cost delete_cost replace_cost r c).1 ≤
            (levCosts seq1 seq2 insert_cost delete_cost replace_cost r c).2.2
      · have hch : levChoose seq1 seq2 insert_cost delete_cost replace_cost r c =
            (r - 1, c) := by
          unfold levChoose chooseNat
          rw [if_pos h1]
        rw [hch]
        rw [if_pos (show ((r - 1, c).1 : Int) + 1 = (r : Int) ∧ ((r - 1, c).2 : Int) = (c : Int)
          from ⟨by dsimp only; omega, rfl⟩)]
        rw [show ((r - 1, c).1 : Int).toNat = r - 1 from Int.toNat_natCast _,
          show ((r - 1, c).2 : Int).toNat = c from Int.toNat_natCast _]
        conv_rhs => rw [btPath]
        rw [dif_pos ⟨hrp, hcp⟩, if_pos h1]
        rw [IH (r - 1) c (by omega) (by omega) hc _]
        rw [List.append_assoc, List.singleton_append]
      · by_cases h2 : (levCosts seq1 seq2 insert_cost delete_cost replace_cost r c).2.1 ≤
              (levCosts seq1 seq2 insert_cost delete_cost replace_cost r c).1 ∧
            (levCosts seq1 seq2 insert_cost delete_cost replace_cost r c).2.1 ≤
              (levCosts seq1 seq2 insert_cost delete_cost replace_cost r c).2.2
        · have hch : levChoose seq1 seq2 insert_cost delete_cost replace_cost r c =
              (r, c - 1) := by
            unfold levChoose chooseNat
            rw [if_neg h1, if_pos h2]
          rw [hch]
          rw [if_neg (show ¬ (((r, c - 1).1 : Int) + 1 = (r : Int) ∧
            ((r, c - 1).2 : Int) = (c : Int)) by dsimp only; omega)]
          rw [if_pos (show ((r, c - 1).1 : Int) = (r : Int) ∧
            ((r, c - 1).2 : Int) + 1 = (c : Int) from ⟨rfl, by dsimp only; omega⟩)]
          rw [show ((r, c - 1).1 : Int).toNat = r from Int.toNat_natCast _,
            show ((r, c - 1).2 : Int).toNat = c - 1 from Int.toNat_natCast _]
          conv_rhs => rw [btPath]
          rw [dif_pos ⟨hrp, hcp⟩, if_neg h1, if_pos h2]
          rw [IH r (c - 1) (by omega) hr (by omega) _]
          rw [List.append_assoc, List.singleton_append]
        · have hch : levChoose seq1 seq2 insert_cost delete_cost replace_cost r c =
              (r - 1, c - 1) := by
            unfold levChoose chooseNat
            rw [if_neg h1, if_neg h2]
          rw [hch]
          rw [if_neg (show ¬ (((r - 1, c - 1).1 : Int) + 1 = (r : Int) ∧
            ((r - 1, c - 1).2 : Int) = (c : Int)) by dsimp only; omega)]
          rw [if_neg (show ¬ (((r - 1, c - 1).1 : Int) = (r : Int) ∧
            ((r - 1, c - 1).2 : Int) + 1 = (c : Int)) by dsimp only; omega)]
          rw [show ((r - 1, c - 1).1 : Int).toNat = r - 1 from Int.toNat_natCast _,
            show ((r - 1, c - 1).2 : Int).toNat = c - 1 from Int.toNat_natCast _]
          conv_rhs => rw [btPath]
          rw [dif_pos ⟨hrp, hcp⟩, if_neg h1, if_neg h2]
          rw [IH (r - 1) (c - 1) (by omega) (by omega) (by omega) _]
          rw [List.append_assoc, List.singleton_append]
    · simp only [backtrackLoop]
      rw [if_neg hpos, btPath, dif_neg hpos, ← flushAt_append]

theorem align_eq_btPath (seq1 seq2 : List α) (insert_cost delete_cost replace_cost : Nat) :
    align seq1 seq2 insert_cost delete_cost replace_cost =
      btPath seq1 seq2 insert_cost delete_cost replace_cost seq2.length seq1.length := by
  unfold align
  rw [backtrackLoop_eq_btPath seq1 seq2 insert_cost delete_cost replace_cost
    (seq2.length + seq1.length) seq2.length seq1.length (by omega) (by omega) (by omega) []]
  simp

theorem stepPair_ins (seq1 seq2 : List α) {r : Nat} (c : Nat) (hrp : 0 < r) :
    stepPair seq1 seq2 r c (r - 1, c) =
      ((none : Option α), some (seq2.getD (r - 1) default)) := by
  unfold stepPair
  rw [if_pos ⟨by dsimp only; omega, rfl⟩]

theorem stepPair_del (seq1 seq2 : List α) (r : Nat) {c : Nat} (hcp : 0 < c) :
    stepPair seq1 seq2 r c (r, c - 1) =
      (some (seq1.getD (c - 1) default), (none : Option α)) := by
  unfold stepPair
  rw [if_neg (show ¬ ((r, c - 1).1 + 1 = r ∧ (r, c - 1).2 = c) by dsimp only; omega),
    if_pos ⟨rfl, by dsimp only; omega⟩]

theorem stepPair_diag (seq1 seq2 : List α) {r c : Nat} (hrp : 0 < r) (hcp : 0 < c) :
    stepPair seq1 seq2 r c (r - 1, c - 1) =
      (some (seq1.getD (c - 1) default), some (seq2.getD (r - 1) default)) := by
  unfold stepPair
  rw [if_neg (show ¬ ((r - 1, c - 1).1 + 1 = r ∧ (r - 1, c - 1).2 = c) by dsimp only; omega),
    if_neg (show ¬ ((r - 1, c - 1).1 = r ∧ (r - 1, c - 1).2 + 1 = c) by dsimp only; omega)]

theorem foldl_push {γ : Type} (f : Nat × Nat → γ) :
    ∀ (l : List (Nat × Nat)) (st : List γ),
      l.foldl (fun st p => f p :: st) st = (l.map f).reverse ++ st := by
  intro l
  induction l with
  | nil => intro st; simp
  | cons p t IH =>
    intro st
    simp only [List.foldl_cons, List.map_cons, List.reverse_cons]
    rw [IH]
    simp

theorem stackMeasure_append (A B : List (Nat × Nat × List (Pair α))) :
    stackMeasure (A ++ B) = stackMeasure A + stackMeasure B := by
  induction A with
  | nil => simp [stackMeasure]
  | cons e t IH =>
    rcases e with ⟨r, c, q⟩
    rw [List.cons_append]
    simp only [stackMeasure]
    rw [IH]
    omega

theorem stackMeasure_reverse (A : List (Nat × Nat × List (Pair α))) :
    stackMeasure A.reverse = stackMeasure A := by
  induction A with
  | nil => rfl
  | cons e t IH =>
    rcases e with ⟨r, c, q⟩
    simp only [List.reverse_cons, stackMeasure_append, stackMeasure, IH]
    omega

theorem stackMeasure_push (f : Nat × Nat → List (Pair α)) (k : Nat) (hk : 0 < k) :
    ∀ (l : List (Nat × Nat)), l.length ≤ 3 → (∀ p ∈ l, p.1 + p.2 < k) →
      stackMeasure (l.map fun p => (p.1, p.2, f p)) < 4 ^ k := by
  have hstep : ∀ (l : List (Nat × Nat)), (∀ p ∈ l, p.1 + p.2 < k) →
      stackMeasure (l.map fun p => (p.1, p.2, f p)) ≤ l.length * 4 ^ (k - 1) := by
    intro l
    induction l with
    | nil =>
      intro _
      simp [stackMeasure]
    | cons p t IH =>
      intro hb
      rcases p with ⟨pr, pc⟩
      have hp := hb (pr, pc) (List.mem_cons_self _ _)
      have h1 : 4 ^ (pr + pc) ≤ 4 ^ (k - 1) :=
        Nat.pow_le_pow_right (by norm_num) (by dsimp only at hp; omega)
      have ht := IH (fun p hp => hb p (List.mem_cons_of_mem _ hp))
      simp only [List.map_cons, stackMeasure, List.length_cons, Nat.succ_mul]
      omega
  intro l hlen hb
  have h1 := hstep l hb
  have h2 : l.length * 4 ^ (k - 1) ≤ 3 * 4 ^ (k - 1) :=
    Nat.mul_le_mul_right _ hlen
  have h3 : 4 ^ k = 4 * 4 ^ (k - 1) := by
    conv_lhs => rw [show k = (k - 1) + 1 by omega]
    rw [Nat.pow_succ]
    ring
  have h4 : 0 < 4 ^ (k - 1) := Nat.pow_pos (by norm_num)
  omega

theorem levPreds_length (seq1 seq2 : List α) (insert_cost delete_cost replace_cost : Nat)
    (r c : Nat) :
    (levPreds seq1 seq2 insert_cost delete_cost replace_cost r c).length ≤ 3 := by
  unfold levPreds predsOf
  split_ifs <;> simp

theorem levPreds_bound (seq1 seq2 : List α) (insert_cost delete_cost replace_cost : Nat)
    {r c : Nat} (hrp : 0 < r) (hcp : 0 < c) {p : Nat × Nat}
    (hp : p ∈ levPreds seq1 seq2 insert_cost delete_cost replace_cost r c) :
    p.1 + p.2 < r + c ∧ p.1 ≤ r ∧ p.2 ≤ c := by
  rcases levPreds_sound seq1 seq2 insert_cost delete_cost replace_cost hrp hcp hp with
    ⟨h, _⟩ | ⟨h, _⟩ | ⟨h, _⟩ <;> subst h <;> dsimp only <;> omega

theorem levPreds_reverse_flatMap (seq1 seq2 : List α)
    (insert_cost delete_cost replace_cost : Nat) {r c : Nat} (hrp : 0 < r) (hcp : 0 < c)
    (q : List (Pair α)) :
    (((levPreds seq1 seq2 insert_cost delete_cost replace_cost r c).map
        (fun p => (p.1, p.2, stepPair seq1 seq2 r c p :: q))).reverse).flatMap
      (fun e => pathsFrom seq1 seq2 insert_cost delete_cost replace_cost e.1 e.2.1 e.2.2) =
      pathsFrom seq1 seq2 insert_cost delete_cost replace_cost r c q := by
  have hint := lev_interior seq1 seq2 insert_cost delete_cost replace_cost hrp hcp
  conv_rhs => rw [pathsFrom]
  rw [dif_pos ⟨hrp, hcp⟩]
  unfold levPreds predsOf
  rw [← hint]
  by_cases h1 : (levCosts seq1 seq2 insert_cost delete_cost replace_cost r c).1 =
      lev seq1 seq2 insert_cost delete_cost replace_cost r c <;>
    by_cases h2 : (levCosts seq1 seq2 insert_cost delete_cost replace_cost r c).2.1 =
      lev seq1 seq2 insert_cost delete_cost replace_cost r c <;>
    by_cases h3 : (levCosts seq1 seq2 insert_cost delete_cost replace_cost r c).2.2 =
      lev seq1 seq2 insert_cost delete_cost replace_cost r c <;>
    simp [h1, h2, h3, stepPair_ins seq1 seq2 c hrp, stepPair_del seq1 seq2 r hcp,
      stepPair_diag seq1 seq2 hrp hcp]

theorem dfsLoop_eq (seq1 seq2 : List α) (insert_cost delete_cost replace_cost : Nat) :
    ∀ (fuel : Nat) (stack : List (Nat × Nat × List (Pair α))) (result : List (List (Pair α))),
      stackMeasure stack ≤ fuel →
      (∀ e ∈ stack, e.1 ≤ seq2.length ∧ e.2.1 ≤ seq1.length) →
      dfsLoop (align_all_state seq1 seq2 insert_cost delete_cost replace_cost).2 seq1 seq2
          fuel stack result =
        result ++ stack.flatMap
          (fun e => pathsFrom seq1 seq2 insert_cost delete_cost replace_cost e.1 e.2.1 e.2.2) := by
  intro fuel
  induction fuel with
  | zero =>
    intro stack result hm hwf
    cases stack with
    | nil => simp [dfsLoop]
    | cons e rest =>
      exfalso
      rcases e with ⟨r, c, q⟩
      have h4 : 0 < 4 ^ (r + c) := Nat.pow_pos (by norm_num)
      simp only [stackMeasure] at hm
      omega
  | succ fuel IH =>
    intro stack result hm hwf
    cases stack with
    | nil => simp [dfsLoop]
    | cons e rest =>
      rcases e with ⟨r, c, q⟩
      obtain ⟨hr, hc⟩ := hwf (r, c, q) (List.mem_cons_self _ _)
      dsimp only at hr hc
      by_cases hpos : 0 < r ∧ 0 < c
      · obtain ⟨hrp, hcp⟩ := hpos
        have hmemo := align_all_state_snd_eq seq1 seq2 insert_cost delete_cost replace_cost
          hrp hr hcp hc
        simp only [dfsLoop]
        rw [if_pos ⟨hrp, hcp⟩, hmemo, foldl_push]
        have hmeasure : stackMeasure
            (((levPreds seq1 seq2 insert_cost delete_cost replace_cost r c).map
              (fun p => (p.1, p.2, stepPair seq1 seq2 r c p :: q))).reverse ++ rest) ≤ fuel := by
          rw [stackMeasure_append, stackMeasure_reverse]
          have hpush := stackMeasure_push
            (fun p => stepPair seq1 seq2 r c p :: q) (r + c) (by omega)
            (levPreds seq1 seq2 insert_cost delete_cost replace_cost r c)
            (levPreds_length seq1 seq2 insert_cost delete_cost replace_cost r c)
            (fun p hp => (levPreds_bound seq1 seq2 insert_cost delete_cost replace_cost
              hrp hcp hp).1)
          dsimp only at hpush
          simp only [stackMeasure] at hm
          omega
        have hwf' : ∀ e ∈ (((levPreds seq1 seq2 insert_cost delete_cost replace_cost r c).map
            (fun p => (p.1, p.2, stepPair seq1 seq2 r c p :: q))).reverse ++ rest),
            e.1 ≤ seq2.length ∧ e.2.1 ≤ seq1.length := by
          intro e he
          rcases List.mem_append.mp he with he | he
          · rw [List.mem_reverse, List.mem_map] at he
            obtain ⟨p, hp, hpe⟩ := he
            have hb := levPreds_bound seq1 seq2 insert_cost delete_cost replace_cost hrp hcp hp
            rw [← hpe]
            dsimp only
            omega
          · exact hwf e (List.mem_cons_of_mem _ he)
        rw [IH _ _ hmeasure hwf']
        rw [List.flatMap_append,
          levPreds_reverse_flatMap seq1 seq2 insert_cost delete_cost replace_cost hrp hcp q]
        simp [List.flatMap_cons]
      · simp only [dfsLoop]
        rw [if_neg hpos]
        have hmeasure : stackMeasure rest ≤ fuel := by
          have h4 : 0 < 4 ^ (r + c) := Nat.pow_pos (by norm_num)
          simp only [stackMeasure] at hm
          omega
        rw [IH rest (result ++ [flushAt seq1 seq2 r c q]) hmeasure
          (fun e he => hwf e (List.mem_cons_of_mem _ he))]
        rw [List.flatMap_cons]
        rw [show pathsFrom seq1 seq2 insert_cost delete_cost replace_cost (r, c, q).1
            (r, c, q).2.1 (r, c, q).2.2 = [flushAt seq1 seq2 r c q] from by
          rw [pathsFrom, dif_neg hpos]]
        simp

theorem align_all_eq_pathsFrom (seq1 seq2 : List α)
    (insert_cost delete_cost replace_cost : Nat) :
    align_all seq1 seq2 insert_cost delete_cost replace_cost =
      pathsFrom seq1 seq2 insert_cost delete_cost replace_cost seq2.length seq1.length [] := by
  unfold align_all
  rw [dfsLoop_eq seq1 seq2 insert_cost delete_cost replace_cost
    (4 ^ (seq2.length + seq1.length)) [(seq2.length, seq1.length, [])] []
    (by simp [stackMeasure]) (by simp)]
  simp [List.flatMap_cons]

theorem align_all_members (seq1 seq2 : List α) (insert_cost delete_cost replace_cost : Nat)
    {al : List (Pair α)} (hal : al ∈ align_all seq1 seq2 insert_cost delete_cost replace_cost) :
    alignmentCost insert_cost delete_cost replace_cost al =
      distance seq1 seq2 insert_cost delete_cost replace_cost ∧
    leftOf al = seq1 ∧ rightOf al = seq2 ∧
    ∀ p ∈ al, p ≠ ((none : Option α), (none : Option α)) := by
  rw [align_all_eq_pathsFrom] at hal
  obtain ⟨X, hX, hcost, hleft, hright, hnn⟩ :=
    pathsFrom_spec seq1 seq2 insert_cost delete_cost replace_cost
      (seq2.length + seq1.length) seq2.length seq1.length (by omega) (by omega) (by omega)
      [] al hal
  rw [List.append_nil] at hX
  subst hX
  exact ⟨by rw [hcost, distance_eq_lev], by rw [hleft, List.take_length],
    by rw [hright, List.take_length], hnn⟩

theorem align_mem_align_all (seq1 seq2 : List α)
    (insert_cost delete_cost replace_cost : Nat) :
    align seq1 seq2 insert_cost delete_cost replace_cost ∈
      align_all seq1 seq2 insert_cost delete_cost replace_cost := by
  rw [align_eq_btPath, align_all_eq_pathsFrom]
  have h := btPath_mem_pathsFrom seq1 seq2 insert_cost delete_cost replace_cost
    (seq2.length + seq1.length) seq2.length seq1.length (by omega) (by omega) (by omega) []
  rwa [List.append_nil] at h

theorem align_all_ne_nil (seq1 seq2 : List α)
    (insert_cost delete_cost replace_cost : Nat) :
    align_all seq1 seq2 insert_cost delete_cost replace_cost ≠ [] :=
  List.ne_nil_of_mem (align_mem_align_all seq1 seq2 insert_cost delete_cost replace_cost)

theorem length_le_sum (al : List (Pair α))
    (hnn : ∀ p ∈ al, p ≠ ((none : Option α), (none : Option α))) :
    al.length ≤ (leftOf al).length + (rightOf al).length := by
  induction al with
  | nil => simp
  | cons p t IH =>
    have hp := hnn p (List.mem_cons_self _ _)
    have ht := IH (fun x hx => hnn x (List.mem_cons_of_mem _ hx))
    rcases p with ⟨a, b⟩
    rcases a with _ | a
    · rcases b with _ | b
      · exact absurd rfl hp
      · simp only [leftOf, rightOf, List.filterMap_cons, List.length_cons] at ht ⊢
        omega
    · rcases b with _ | b
      · simp only [leftOf, rightOf, List.filterMap_cons, List.length_cons] at ht ⊢
        omega
      · simp only [leftOf, rightOf, List.filterMap_cons, List.length_cons] at ht ⊢
        omega

theorem roundtrip_length_bounds (seq1 seq2 : List α) {al : List (Pair α)}
    (hleft : leftOf al = seq1) (hright : rightOf al = seq2)
    (hnn : ∀ p ∈ al, p ≠ ((none : Option α), (none : Option α))) :
    max seq1.length seq2.length ≤ al.length ∧ al.length ≤ seq1.length + seq2.length := by
  have h1 : (leftOf al).length ≤ al.length := List.length_filterMap_le _ _
  have h2 : (rightOf al).length ≤ al.length := List.length_filterMap_le _ _
  have h3 := length_le_sum al hnn
  rw [hleft] at h1 h3
  rw [hright] at h2 h3
  omega

theorem lev_symm (seq1 seq2 : List α) :
    ∀ (n r c : Nat), r + c ≤ n →
      lev seq1 seq2 1 1 1 r c = lev seq2 seq1 1 1 1 c r := by
  intro n
  induction n with
  | zero =>
    intro r c hn
    have hr0 : r = 0 := by omega
    have hc0 : c = 0 := by omega
    subst hr0
    subst hc0
    rw [lev_zero_left, lev_zero_left]
  | succ n IH =>
    intro r c hn
    rcases Nat.eq_zero_or_pos r with hr | hr
    · subst hr
      rw [lev_zero_left, lev_zero_right]
    · rcases Nat.eq_zero_or_pos c with hc | hc
      · subst hc
        rw [lev_zero_right, lev_zero_left]
      · rw [lev_interior seq1 seq2 1 1 1 hr hc, lev_interior seq2 seq1 1 1 1 hc hr]
        simp only [levCosts]
        rw [IH (r - 1) c (by omega), IH r (c - 1) (by omega), IH (r - 1) (c - 1) (by omega)]
        have hswap : (if seq1.getD (c - 1) default ≠ seq2.getD (r - 1) default
              then 1 else 0) =
            (if seq2.getD (r - 1) default ≠ seq1.getD (c - 1) default then 1 else 0) := by
          rcases eq_or_ne (seq1.getD (c - 1) default) (seq2.getD (r - 1) default) with h | h
          · rw [if_neg (show ¬ (seq1.getD (c - 1) default ≠ seq2.getD (r - 1) default)
              from fun hne => hne h),
              if_neg (show ¬ (seq2.getD (r - 1) default ≠ seq1.getD (c - 1) default)
              from fun hne => hne h.symm)]
          · rw [if_pos h, if_pos h.symm]
        rw [hswap]
        omega

theorem distance_symm_unit (seq1 seq2 : List α) :
    distance seq1 seq2 1 1 1 = distance seq2 seq1 1 1 1 := by
  rw [distance_eq_lev, distance_eq_lev]
  exact lev_symm seq1 seq2 (seq2.length + seq1.length) seq2.length seq1.length (by omega)

theorem customInit_default (seq1 seq2 : List α) :
    customInit seq1 seq2 (fun _ => 1) (fun _ => 1) = flatInit 1 1 := by
  funext r c
  simp only [customInit, flatInit, mul_one]
  split_ifs <;> omega

theorem custom_alignBody_default :
    CustomizedLevenshtein.alignBody (fun a b : α => decide (a = b)) (fun _ => 1) (fun _ => 1)
      (fun _ _ => 1) = alignBody 1 1 1 := by
  funext s r c i1 i2
  unfold CustomizedLevenshtein.alignBody alignBody
  by_cases h : i1 = i2
  · simp [h]
  · simp [h]

theorem custom_alignAllBody_default :
    CustomizedLevenshtein.alignAllBody (fun a b : α => decide (a = b)) (fun _ => 1)
      (fun _ => 1) (fun _ _ => 1) = alignAllBody 1 1 1 := by
  funext s r c i1 i2
  unfold CustomizedLevenshtein.alignAllBody alignAllBody
  by_cases h : i1 = i2
  · simp [h]
  · simp [h]

theorem customized_align_default (seq1 seq2 : List α) :
    CustomizedLevenshtein.align (fun a b : α => decide (a = b)) (fun _ => 1) (fun _ => 1)
      (fun _ _ => 1) seq1 seq2 = align seq1 seq2 1 1 1 := by
  unfold CustomizedLevenshtein.align align CustomizedLevenshtein.alignState alignState
  rw [custom_alignBody_default, customInit_default]

theorem customized_align_all_default (seq1 seq2 : List α) :
    CustomizedLevenshtein.align_all (fun a b : α => decide (a = b)) (fun _ => 1) (fun _ => 1)
      (fun _ _ => 1) seq1 seq2 = align_all seq1 seq2 1 1 1 := by
  unfold CustomizedLevenshtein.align_all align_all CustomizedLevenshtein.align_all_state
    align_all_state
  rw [custom_alignAllBody_default, customInit_default]

theorem chooseNat_eq_first_min (ci cd cr r c : Nat) :
    chooseNat ci cd cr r c =
      (if ci = min (min ci cd) cr then (r - 1, c)
       else if cd = min (min ci cd) cr then (r, c - 1)
       else (r - 1, c - 1)) := by
  unfold chooseNat
  by_cases h1 : ci ≤ cd ∧ ci ≤ cr
  · rw [if_pos h1, if_pos (by omega)]
  · rw [if_neg h1]
    by_cases h2 : cd ≤ ci ∧ cd ≤ cr
    · rw [if_pos h2, if_neg (by omega), if_pos (by omega)]
    · rw [if_neg h2, if_neg (by omega), if_neg (by omega)]

/-- C1: for every pair of finite sequences and every non-negative cost configuration
(non-negativity is encoded by the `Nat` cost type), the summed cost of the edit
operations implied by the alignment returned by `align` (0 for equal diagonal pairs,
`replace_cost` for mismatched diagonal pairs, `insert_cost` for `(absent, b)` pairs,
`delete_cost` for `(a, absent)` pairs), and by every member of `align_all`'s result,
equals `distance`, the minimum transformation cost. -/
theorem C1_alignment_cost_eq_distance (seq1 seq2 : List α)
    (insert_cost delete_cost replace_cost : Nat) :
    alignmentCost insert_cost delete_cost replace_cost
        (align seq1 seq2 insert_cost delete_cost replace_cost) =
      distance seq1 seq2 insert_cost delete_cost replace_cost ∧
    ∀ al ∈ align_all seq1 seq2 insert_cost delete_cost replace_cost,
      alignmentCost insert_cost delete_cost replace_cost al =
        distance seq1 seq2 insert_cost delete_cost replace_cost :=
  ⟨(align_all_members seq1 seq2 insert_cost delete_cost replace_cost
      (align_mem_align_all seq1 seq2 insert_cost delete_cost replace_cost)).1,
   fun _ hal => (align_all_members seq1 seq2 insert_cost delete_cost replace_cost hal).1⟩

/-- Witness for C1 at a concrete input: the first alignment `align_all` returns for
`[0, 1]` vs `[1, 0]` has implied cost equal to the distance. -/
theorem C1_alignment_cost_eq_distance_witness :
    alignmentCost 1 1 1 [((some 0 : Option Nat), some 1), (some 1, some 0)] =
      distance [0, 1] [1, 0] 1 1 1 :=
  (C1_alignment_cost_eq_distance [0, 1] [1, 0] 1 1 1).2
    [(some 0, some 1), (some 1, some 0)] (by decide)

/-- C2: for every pair of finite sequences, removing the gap entries of the alignment
returned by `align`, or of any member of `align_all`'s result, and concatenating the
remaining components reconstructs exactly `seq1` on the left and exactly `seq2` on the
right. -/
theorem C2_round_trip (seq1 seq2 : List α) (insert_cost delete_cost replace_cost : Nat) :
    leftOf (align seq1 seq2 insert_cost delete_cost replace_cost) = seq1 ∧
    rightOf (align seq1 seq2 insert_cost delete_cost replace_cost) = seq2 ∧
    ∀ al ∈ align_all seq1 seq2 insert_cost delete_cost replace_cost,
      leftOf al = seq1 ∧ rightOf al = seq2 := by
  have h := align_all_members seq1 seq2 insert_cost delete_cost replace_cost
    (align_mem_align_all seq1 seq2 insert_cost delete_cost replace_cost)
  exact ⟨h.2.1, h.2.2.1, fun al hal =>
    ⟨(align_all_members seq1 seq2 insert_cost delete_cost replace_cost hal).2.1,
     (align_all_members seq1 seq2 insert_cost delete_cost replace_cost hal).2.2.1⟩⟩

/-- Witness for C2 at a concrete input: the first alignment of `align_all [0,1] [1,0]`
reconstructs both inputs. -/
theorem C2_round_trip_witness :
    leftOf [((some 0 : Option Nat), some 1), (some 1, some 0)] = [0, 1] ∧
    rightOf [((some 0 : Option Nat), some 1), (some 1, some 0)] = [1, 0] :=
  (C2_round_trip [0, 1] [1, 0] 1 1 1).2.2 [(some 0, some 1), (some 1, some 0)] (by decide)

/-- C3: in the DP tables built by `distance`, `align` and `align_all`, every interior
cell `(i, j)` with `1 ≤ i ≤ len(seq2)` and `1 ≤ j ≤ len(seq1)` equals the minimum of
cell `(i-1, j) + insert_cost`, cell `(i, j-1) + delete_cost`, and
cell `(i-1, j-1) + replace_cost` if the elements differ else `+ 0`, for any
non-negative cost configuration. -/
theorem C3_dp_table_invariant (seq1 seq2 : List α)
    (insert_cost delete_cost replace_cost : Nat) (i j : Nat)
    (hi1 : 1 ≤ i) (hi : i ≤ seq2.length) (hj1 : 1 ≤ j) (hj : j ≤ seq1.length) :
    distance_table seq1 seq2 insert_cost delete_cost replace_cost i j =
      min (min (distance_table seq1 seq2 insert_cost delete_cost replace_cost (i - 1) j
            + insert_cost)
          (distance_table seq1 seq2 insert_cost delete_cost replace_cost i (j - 1)
            + delete_cost))
        (distance_table seq1 seq2 insert_cost delete_cost replace_cost (i - 1) (j - 1) +
          if seq1.getD (j - 1) default ≠ seq2.getD (i - 1) default
            then replace_cost else 0) ∧
    (alignState seq1 seq2 insert_cost delete_cost replace_cost).1 i j =
      min (min ((alignState seq1 seq2 insert_cost delete_cost replace_cost).1 (i - 1) j
            + insert_cost)
          ((alignState seq1 seq2 insert_cost delete_cost replace_cost).1 i (j - 1)
            + delete_cost))
        ((alignState seq1 seq2 insert_cost delete_cost replace_cost).1 (i - 1) (j - 1) +
          if seq1.getD (j - 1) default ≠ seq2.getD (i - 1) default
            then replace_cost else 0) ∧
    (align_all_state seq1 seq2 insert_cost delete_cost replace_cost).1 i j =
      min (min ((align_all_state seq1 seq2 insert_cost delete_cost replace_cost).1 (i - 1) j
            + insert_cost)
          ((align_all_state seq1 seq2 insert_cost delete_cost replace_cost).1 i (j - 1)
            + delete_cost))
        ((align_all_state seq1 seq2 insert_cost delete_cost replace_cost).1 (i - 1) (j - 1) +
          if seq1.getD (j - 1) default ≠ seq2.getD (i - 1) default
            then replace_cost else 0) := by
  refine ⟨?_, ?_, ?_⟩
  · rw [distance_table_eq seq1 seq2 insert_cost delete_cost replace_cost hi hj,
      distance_table_eq seq1 seq2 insert_cost delete_cost replace_cost
        (show i - 1 ≤ seq2.length by omega) hj,
      distance_table_eq seq1 seq2 insert_cost delete_cost replace_cost hi
        (show j - 1 ≤ seq1.length by omega),
      distance_table_eq seq1 seq2 insert_cost delete_cost replace_cost
        (show i - 1 ≤ seq2.length by omega) (show j - 1 ≤ seq1.length by omega),
      lev_interior seq1 seq2 insert_cost delete_cost replace_cost
        (show 0 < i by omega) (show 0 < j by omega)]
    simp only [levCosts]
  · rw [alignState_fst_eq seq1 seq2 insert_cost delete_cost replace_cost hi hj,
      alignState_fst_eq seq1 seq2 insert_cost delete_cost replace_cost
        (show i - 1 ≤ seq2.length by omega) hj,
      alignState_fst_eq seq1 seq2 insert_cost delete_cost replace_cost hi
        (show j - 1 ≤ seq1.length by omega),
      alignState_fst_eq seq1 seq2 insert_cost delete_cost replace_cost
        (show i - 1 ≤ seq2.length by omega) (show j - 1 ≤ seq1.length by omega),
      lev_interior seq1 seq2 insert_cost delete_cost replace_cost
        (show 0 < i by omega) (show 0 < j by omega)]
    simp only [levCosts]
  · rw [align_all_state_fst_eq seq1 seq2 insert_cost delete_cost replace_cost hi hj,
      align_all_state_fst_eq seq1 seq2 insert_cost delete_cost replace_cost
        (show i - 1 ≤ seq2.length by omega) hj,
      align_all_state_fst_eq seq1 seq2 insert_cost delete_cost replace_cost hi
        (show j - 1 ≤ seq1.length by omega),
      align_all_state_fst_eq seq1 seq2 insert_cost delete_cost replace_cost
        (show i - 1 ≤ seq2.length by omega) (show j - 1 ≤ seq1.length by omega),
      lev_interior seq1 seq2 insert_cost delete_cost replace_cost
        (show 0 < i by omega) (show 0 < j by omega)]
    simp only [levCosts]

/-- Witness for C3 at a concrete input: the interior cell (1, 1) of the three tables
for seq1 = [0], seq2 = [1] with costs 1, 1, 5 equals the recurrence value 2. -/
theorem C3_dp_table_invariant_witness :
    distance_table [0] [1] 1 1 5 1 1 = 2 ∧
    (alignState [0] [1] 1 1 5).1 1 1 = 2 ∧
    (align_all_state [0] [1] 1 1 5).1 1 1 = 2 := by
  obtain ⟨h1, h2, h3⟩ :=
    C3_dp_table_invariant [0] [1] 1 1 5 1 1 (by decide) (by decide) (by decide) (by decide)
  exact ⟨h1.trans (by decide), h2.trans (by decide), h3.trans (by decide)⟩

/-- C4: the claim demands per-element prefix sums in the base row/column of the
customizable variant's DP table, matching the spec and the documented intent
("minimizes the Levenshtein Distance"); the code instead computes
`col_idx * delete_cost(seq1[col_idx - 1])`, a constant multiple of the last element's
cost. At seq1 = [0, 1] with delete_cost 0 ↦ 5, 1 ↦ 1 and seq2 = [], the base cell
(0, 2) of `CustomizedLevenshtein.align`'s DP table is 2, while the per-element prefix
sum the claim demands is 5 + 1 = 6. -/
theorem C4_custom_base_row_not_prefix_sum :
    (CustomizedLevenshtein.alignState (fun a b : Nat => decide (a = b)) (fun _ => 1)
        (fun a => if a = 0 then 5 else 1) (fun _ _ => 1) [0, 1] []).1 0 2 = 2 ∧
    (([0, 1] : List Nat).map (fun a => if a = 0 then 5 else 1)).sum = 6 ∧
    (2 : Nat) ≠ 6 :=
  ⟨by decide, by decide, by decide⟩

/-- C5 counterexample: on seq1 = [0, 1], seq2 = [1, 0] (all three predecessors of the
final cell tie at the minimum), the first alignment `align_all` returns is the one
reached through the replace predecessor; the alignment reached through the insert
predecessor — which would come first if predecessors were explored with insert, delete,
replace priority as the claim states — comes last. -/
theorem C5_counterexample_exploration_order :
    align_all ([0, 1] : List Nat) [1, 0] 1 1 1 =
      [[(some 0, some 1), (some 1, some 0)],
       [(none, some 1), (some 0, some 0), (some 1, none)],
       [(some 0, none), (some 1, some 1), (none, some 0)]] ∧
    (align_all ([0, 1] : List Nat) [1, 0] 1 1 1).head? ≠
      some [(some 0, none), (some 1, some 1), (none, some 0)] :=
  ⟨by decide, by decide⟩

/-- C5 amended: `align_all` records predecessors in insert, delete, replace order, but
its DFS work stack is LIFO, so at every cell the recorded predecessors are explored in
the reverse order — replace first, then delete, then insert — and this reversed
priority determines which alignment appears first, second, etc., in the returned list:
the output equals the recursive enumeration `pathsFrom`, which descends into the
replace branch first and the insert branch last. -/
theorem C5_amended_exploration_order (seq1 seq2 : List α)
    (insert_cost delete_cost replace_cost : Nat) :
    align_all seq1 seq2 insert_cost delete_cost replace_cost =
      pathsFrom seq1 seq2 insert_cost delete_cost replace_cost seq2.length seq1.length [] :=
  align_all_eq_pathsFrom seq1 seq2 insert_cost delete_cost replace_cost

/-- C6: at every interior cell of `align`'s single-best predecessor memo, the recorded
predecessor is the first candidate achieving the cell's minimum, testing insert, then
delete, then replace — so on ties the earlier candidate in that order wins. -/
theorem C6_align_memo_first_min_priority (seq1 seq2 : List α)
    (insert_cost delete_cost replace_cost : Nat) (r c : Nat)
    (hr1 : 1 ≤ r) (hr : r ≤ seq2.length) (hc1 : 1 ≤ c) (hc : c ≤ seq1.length) :
    (alignState seq1 seq2 insert_cost delete_cost replace_cost).2 r c =
      (if (alignState seq1 seq2 insert_cost delete_cost replace_cost).1 (r - 1) c
            + insert_cost =
          min (min ((alignState seq1 seq2 insert_cost delete_cost replace_cost).1 (r - 1) c
                + insert_cost)
              ((alignState seq1 seq2 insert_cost delete_cost replace_cost).1 r (c - 1)
                + delete_cost))
            ((alignState seq1 seq2 insert_cost delete_cost replace_cost).1 (r - 1) (c - 1) +
              if seq1.getD (c - 1) default ≠ seq2.getD (r - 1) default
                then replace_cost else 0) then
         (((r - 1 : Nat) : Int), (c : Int))
       else if (alignState seq1 seq2 insert_cost delete_cost replace_cost).1 r (c - 1)
            + delete_cost =
          min (min ((alignState seq1 seq2 insert_cost delete_cost replace_cost).1 (r - 1) c
                + insert_cost)
              ((alignState seq1 seq2 insert_cost delete_cost replace_cost).1 r (c - 1)
                + delete_cost))
            ((alignState seq1 seq2 insert_cost delete_cost replace_cost).1 (r - 1) (c - 1) +
              if seq1.getD (c - 1) default ≠ seq2.getD (r - 1) default
                then replace_cost else 0) then
         ((r : Int), ((c - 1 : Nat) : Int))
       else (((r - 1 : Nat) : Int), ((c - 1 : Nat) : Int))) := by
  rw [alignState_snd_eq seq1 seq2 insert_cost delete_cost replace_cost hr1 hr hc1 hc]
  rw [alignState_fst_eq seq1 seq2 insert_cost delete_cost replace_cost
      (show r - 1 ≤ seq2.length by omega) hc,
    alignState_fst_eq seq1 seq2 insert_cost delete_cost replace_cost hr
      (show c - 1 ≤ seq1.length by omega),
    alignState_fst_eq seq1 seq2 insert_cost delete_cost replace_cost
      (show r - 1 ≤ seq2.length by omega) (show c - 1 ≤ seq1.length by omega)]
  unfold levChoose
  rw [chooseNat_eq_first_min]
  simp only [levCosts]
  split_ifs <;> rfl

/-- Witness for C6: at the tied cell (1, 1) for seq1 = [0], seq2 = [1] with
replace_cost 5 (insert and delete candidates tie at 2), the recorded predecessor is the
insert one, (0, 1). -/
theorem C6_align_memo_first_min_priority_witness :
    (alignState [0] [1] 1 1 5).2 1 1 = ((0 : Int), (1 : Int)) :=
  (C6_align_memo_first_min_priority [0] [1] 1 1 5 1 1
    (by decide) (by decide) (by decide) (by decide)).trans (by decide)

/-- C7: for every pair of finite sequences and every non-negative cost configuration,
`align_all` returns a non-empty collection and the alignment `align` returns is a
member of it. -/
theorem C7_align_in_align_all (seq1 seq2 : List α)
    (insert_cost delete_cost replace_cost : Nat) :
    align_all seq1 seq2 insert_cost delete_cost replace_cost ≠ [] ∧
    align seq1 seq2 insert_cost delete_cost replace_cost ∈
      align_all seq1 seq2 insert_cost delete_cost replace_cost :=
  ⟨align_all_ne_nil seq1 seq2 insert_cost delete_cost replace_cost,
   align_mem_align_all seq1 seq2 insert_cost delete_cost replace_cost⟩

/-- C8: with the default unit costs, `distance` is symmetric. -/
theorem C8_distance_symmetric_unit_costs (seq1 seq2 : List α) :
    distance seq1 seq2 1 1 1 = distance seq2 seq1 1 1 1 :=
  distance_symm_unit seq1 seq2

/-- C9: a `CustomizedLevenshtein` with its default arguments (value equality, constant
cost 1 for insert, delete and replace) behaves identically to the module-level
functions with default flat costs, on every pair of input sequences. -/
theorem C9_customized_default_eq_flat (seq1 seq2 : List α) :
    CustomizedLevenshtein.align (fun a b : α => decide (a = b)) (fun _ => 1) (fun _ => 1)
        (fun _ _ => 1) seq1 seq2 = align seq1 seq2 1 1 1 ∧
    CustomizedLevenshtein.align_all (fun a b : α => decide (a = b)) (fun _ => 1)
        (fun _ => 1) (fun _ _ => 1) seq1 seq2 = align_all seq1 seq2 1 1 1 :=
  ⟨customized_align_default seq1 seq2, customized_align_all_default seq1 seq2⟩

/-- C10: every pair in the alignment `align` returns, and in every member of
`align_all`'s result, has at least one present component — `(absent, absent)` never
occurs — and consequently the length of any returned alignment is at least
`max len(seq1) len(seq2)` and at most `len(seq1) + len(seq2)`. -/
theorem C10_no_double_gap_and_length_bounds (seq1 seq2 : List α)
    (insert_cost delete_cost replace_cost : Nat) :
    (∀ p ∈ align seq1 seq2 insert_cost delete_cost replace_cost,
      p ≠ ((none : Option α), (none : Option α))) ∧
    max seq1.length seq2.length ≤
      (align seq1 seq2 insert_cost delete_cost replace_cost).length ∧
    (align seq1 seq2 insert_cost delete_cost replace_cost).length ≤
      seq1.length + seq2.length ∧
    ∀ al ∈ align_all seq1 seq2 insert_cost delete_cost replace_cost,
      (∀ p ∈ al, p ≠ ((none : Option α), (none : Option α))) ∧
      max seq1.length seq2.length ≤ al.length ∧
      al.length ≤ seq1.length + seq2.length := by
  have hmain : ∀ al ∈ align_all seq1 seq2 insert_cost delete_cost replace_cost,
      (∀ p ∈ al, p ≠ ((none : Option α), (none : Option α))) ∧
      max seq1.length seq2.length ≤ al.length ∧
      al.length ≤ seq1.length + seq2.length := by
    intro al hal
    obtain ⟨_, hleft, hright, hnn⟩ :=
      align_all_members seq1 seq2 insert_cost delete_cost replace_cost hal
    obtain ⟨hlo, hhi⟩ := roundtrip_length_bounds seq1 seq2 hleft hright hnn
    exact ⟨hnn, hlo, hhi⟩
  have halign := hmain _ (align_mem_align_all seq1 seq2 insert_cost delete_cost replace_cost)
  exact ⟨halign.1, halign.2.1, halign.2.2, hmain⟩

/-- Witness for C10 at a concrete input: the first alignment of
`align_all [0, 1] [1, 0]` has length between `max 2 2` and `2 + 2`. -/
theorem C10_no_double_gap_and_length_bounds_witness :
    max ([0, 1] : List Nat).length ([1, 0] : List Nat).length ≤
      ([((some 0 : Option Nat), some 1), (some 1, some 0)] : List (Pair Nat)).length ∧
    ([((some 0 : Option Nat), some 1), (some 1, some 0)] : List (Pair Nat)).length ≤
      ([0, 1] : List Nat).length + ([1, 0] : List Nat).length := by
  have h := (C10_no_double_gap_and_length_bounds [0, 1] [1, 0] 1 1 1).2.2.2
    [(some 0, some 1), (some 1, some 0)] (by decide)
  exact ⟨h.2.1, h.2.2⟩

end Lvnshnforitr
